import Mathlib

/-!
Verification of the chunk metadata manager (`s/chunk.cpp`, `shard.h`) and the
fixed-size hash table (`hashtab.h`) of the sharded document database.

Shallow embedding conventions:
* BSON shard-key values are modelled by `BVal`: the `MinKey`/`MaxKey`
  sentinels plus integer values (the shard keys exercised by the code paths
  under verification are single-field keys such as `{a : 1}`).
* A (possibly empty) single-field BSON object is `BObj := Option BVal`,
  `none` standing for the empty object `{}`.
* `woCompare` / `ShardKeyPattern::compare` on such objects is `bobjCmp`,
  returning a sign in `{-1, 0, 1}`.
* C++ `int`/`long` arithmetic is modelled on `Int`; C integer division
  truncates toward zero, which is `Int.tdiv`.
* `std::map` ordered by key is modelled by an association list sorted in
  strictly increasing key order; `upper_bound`/`lower_bound` return the first
  entry in list order whose key is greater (resp. not smaller) than the probe,
  which coincides with the map semantics on sorted lists.
* External collaborators (config server, backend shards, cluster locks) are
  passed in as explicit parameters: a `Bool` for a lock/command outcome, a
  value for a backend answer such as the picked split point or the physical
  size.
-/

namespace MongoChunk

/-- A BSON shard-key value: the `MinKey`/`MaxKey` sentinels or an integer. -/
inductive BVal where
  | minKey : BVal
  | intV : Int → BVal
  | maxKey : BVal
deriving DecidableEq, Repr

/-- Comparison of two BSON values, sentinels strictly below/above all ints. -/
def bvCmp : BVal → BVal → Int
  | .minKey, .minKey => 0
  | .minKey, _ => -1
  | _, .minKey => 1
  | .maxKey, .maxKey => 0
  | _, .maxKey => -1
  | .maxKey, _ => 1
  | .intV a, .intV b => if a < b then -1 else if a = b then 0 else 1

/-- A single-field BSON object; `none` is the empty object `{}`. -/
abbrev BObj : Type := Option BVal

/-- `BSONObj::woCompare` on single-field objects: the empty object sorts
before any nonempty one. -/
def bobjCmp : BObj → BObj → Int
  | none, none => 0
  | none, some _ => -1
  | some _, none => 1
  | some a, some b => bvCmp a b

/-- The global minimum sentinel key `{a : MinKey}` of the shard-key pattern. -/
def globalMinKey : BObj := some .minKey

/-- The global maximum sentinel key `{a : MaxKey}` of the shard-key pattern. -/
def globalMaxKey : BObj := some .maxKey

theorem bvCmp_intV_eq_zero_iff (a b : Int) :
    bvCmp (.intV a) (.intV b) = 0 ↔ a = b := by
  simp only [bvCmp]
  split
  · omega
  split
  · omega
  · omega

theorem bvCmp_eq_zero_iff (a b : BVal) : bvCmp a b = 0 ↔ a = b := by
  cases a <;> cases b <;>
    first
      | (rw [bvCmp_intV_eq_zero_iff]; simp)
      | simp [bvCmp]

theorem bobjCmp_eq_zero_iff (a b : BObj) : bobjCmp a b = 0 ↔ a = b := by
  cases a <;> cases b <;> simp only [bobjCmp, bvCmp_eq_zero_iff] <;> simp

/-- Strict order on single-field BSON objects, `bobjCmp x y < 0`. -/
def bobjLt (a b : BObj) : Prop := bobjCmp a b < 0

instance : DecidableRel bobjLt := fun a b => by
  unfold bobjLt; infer_instance

/-- In-memory state of one `Chunk` (`shard.h`): namespace, `[min, max)`
bounds, owning shard (by name), `lastmod` version, `modified` flag and the
transient `dataWritten` counter.  The back-reference to the manager is
implicit: manager-wide data is carried by `MgrState` below. -/
structure ChunkData where
  ns : String
  min : BObj
  max : BObj
  shard : Nat
  lastmod : Nat
  modified : Bool
  dataWritten : Int
deriving DecidableEq, Repr

instance : Inhabited ChunkData :=
  ⟨⟨"", none, none, 0, 0, false, 0⟩⟩

/-- `Chunk::contains(obj)` on the extracted key:
`compare(min, key) ≤ 0 && compare(key, max) < 0`. -/
def chunkContainsKey (c : ChunkData) (key : BObj) : Bool :=
  bobjCmp c.min key ≤ 0 && bobjCmp key c.max < 0

/-- `Chunk::operator==`: compares only `_min` and `_max` through the
shard-key comparator. -/
def chunkEqb (a b : ChunkData) : Bool :=
  bobjCmp a.min b.min == 0 && bobjCmp a.max b.max == 0

/-- `Chunk::minIsInf()`: `globalMin().woCompare(getMin()) == 0`. -/
def minIsInf (c : ChunkData) : Bool := bobjCmp globalMinKey c.min == 0

/-- `Chunk::maxIsInf()`: `globalMax().woCompare(getMax()) == 0`. -/
def maxIsInf (c : ChunkData) : Bool := bobjCmp globalMaxKey c.max == 0

/-- `Chunk::MaxChunkSize = 1024 * 1204 * 200`. -/
def MaxChunkSize : Int := 1024 * 1204 * 200

/-- Outcome of `Chunk::splitIfShould`: the returned boolean, the final value
of the chunk's `_dataWritten` counter, and the split point actually used when
a split was performed (`none` when no split happened). -/
structure SplitDecision where
  ret : Bool
  dataWritten : Int
  didSplit : Option BObj
deriving DecidableEq, Repr

/-- The autosplit threshold of `Chunk::splitIfShould`: `MaxChunkSize`,
reduced by 10% when either end of the chunk is a sentinel key.  The source
computes the reduction as `(int)((double)myMax * .9)`; for the program's
`MaxChunkSize = 246579200` (and any value whose 10%-reduction is far from an
integer boundary of the double rounding) this equals `myMax * 9 / 10` in
truncating integer arithmetic. -/
def splitThreshold (maxCS : Int) (cmin cmax : BObj) : Int :=
  if cmin = globalMinKey ∨ cmax = globalMaxKey then Int.tdiv (maxCS * 9) 10
  else maxCS

/-- `Chunk::splitIfShould(dataWritten)` (chunk.cpp lines 272-308), with the
external collaborators as parameters: `lockAvail` is the outcome of the
non-blocking `chunkSplitLock.lock_try(0)`, `splitPoint` the answer of
`pickSplitPoint()` (a backend query), `physSize` the answer of
`getPhysicalSize()` (backend `datasize` command).  The split itself and
`moveIfShould` only mutate manager-level state, recorded here by the
`didSplit` field. -/
def splitIfShould (cmin cmax : BObj) (dw0 written maxCS : Int)
    (lockAvail : Bool) (splitPoint : BObj) (physSize : Int) : SplitDecision :=
  let dw1 := dw0 + written
  let myMax := splitThreshold maxCS cmin cmax
  if dw1 < Int.tdiv myMax 5 then ⟨false, dw1, none⟩
  else if ¬lockAvail then ⟨false, dw1, none⟩
  else
    -- `_dataWritten = 0` happens here, before the split point is picked
    if splitPoint = none ∨ bobjCmp cmin splitPoint = 0 ∨
        bobjCmp cmax splitPoint = 0 then ⟨false, 0, none⟩
    else if physSize < myMax then ⟨false, 0, none⟩
    else ⟨true, 0, some splitPoint⟩

/-- In-memory state of a `ChunkManager` as far as `findChunk`, `split` and
`moveAndCommit` observe it: the chunk vector `_chunks` (chunks addressed by
their index, modelling the C++ `Chunk*` aliasing between `_chunks` and
`_chunkMap`) and the ordered map `_chunkMap : max key → chunk`, kept as an
association list sorted by key.  The coalesced range index `_chunkRanges` is
modelled separately (`ChunkRanges` below); none of the operations verified on
`MgrState` read it. -/
structure MgrState where
  chunks : List ChunkData
  chunkMap : List (BObj × Nat)
deriving DecidableEq, Repr

/-- `std::map::upper_bound(k)` on the chunk map: the first entry (in key
order) whose key is strictly greater than `k`, or `none` for `end()`. -/
def mapUpperBound (m : List (BObj × Nat)) (k : BObj) : Option (BObj × Nat) :=
  m.find? (fun e => decide (bobjCmp k e.1 < 0))

/-- `_chunkMap[k] = v` on the sorted association list: insert or assign. -/
def mapInsert (m : List (BObj × Nat)) (k : BObj) (v : Nat) :
    List (BObj × Nat) :=
  match m with
  | [] => [(k, v)]
  | e :: rest =>
    if bobjCmp k e.1 < 0 then (k, v) :: e :: rest
    else if bobjCmp k e.1 = 0 then (k, v) :: rest
    else e :: mapInsert rest k v

/-- One lookup attempt of `ChunkManager::findChunk` (chunk.cpp lines
568-591): `upper_bound` in the chunk map, then the `contains` check.
`wrongChunk` is the branch that calls `_reload()` and then fails the fatal
`massert(13141, "Chunk map pointed to incorrect chunk", false)`;
`missing` is `upper_bound == end()`. -/
inductive FindOnce where
  | found (c : ChunkData)
  | wrongChunk
  | missing
deriving DecidableEq, Repr

def findChunkOnce (st : MgrState) (key : BObj) : FindOnce :=
  match mapUpperBound st.chunkMap key with
  | some e =>
    if chunkContainsKey (st.chunks.getD e.2 default) key then
      .found (st.chunks.getD e.2 default)
    else .wrongChunk
  | none => .missing

/-- Overall result of `ChunkManager::findChunk`. -/
inductive FindResult where
  | found (c : ChunkData)
  | fatalWrongChunk
  | errorRetryExhausted
deriving DecidableEq, Repr

/-- `ChunkManager::findChunk(obj)` (chunk.cpp lines 565-602).  `st` is the
manager's current state and `reloadSt` the state `_reload()` produces from
the config server (modelled as a constant: the reload outcome within one
call).  The key is already extracted (`_key.extractKey(obj)`; `contains`
re-extracts the same key from the same document).  On `wrongChunk` the code
reloads and then unconditionally fails `massert 13141`; on `missing` it
reloads and retries once with `retry=true`, where a second `missing` throws
`UserException 8070`. -/
def findChunk (st reloadSt : MgrState) (key : BObj) : FindResult :=
  match findChunkOnce st key with
  | .found c => .found c
  | .wrongChunk => .fatalWrongChunk
  | .missing =>
    match findChunkOnce reloadSt key with
    | .found c => .found c
    | .wrongChunk => .fatalWrongChunk
    | .missing => .errorRetryExhausted

/-- Outcome of `Chunk::split(m)` (chunk.cpp lines 140-184).
`errLockFailed` is `uassert 10166` (cluster namespace lock not obtained),
`errCantSplit` is `uassert 13003` ("can't split chunk. does it have only one
distinct value?"). -/
inductive SplitOutcome where
  | errLockFailed
  | errCantSplit
  | ok (newIdx : Nat)
deriving DecidableEq, Repr

/-- `Chunk::split(m)` on chunk index `ci` of the manager state.  `lockOk` is
the outcome of the external `lockNamespaceOnServer` call, checked before the
split-key precondition.  On success a new chunk `[m, old max)` on the same
shard is appended, the original chunk is narrowed to `[old min, m)`, both are
marked modified (`lastmod := 0`), and the chunk map gains entries for both
new max keys.  `_manager->save()` and the change-log write that follow are
external persistence effects (`saveChunks` models the former for
`moveAndCommit`).  On either failure the uassert throws before any mutation,
so the returned state is the input state. -/
def splitChunk (st : MgrState) (ci : Nat) (m : BObj) (lockOk : Bool) :
    SplitOutcome × MgrState :=
  if ¬lockOk then (.errLockFailed, st)
  else
    let c := st.chunks.getD ci default
    if m = none ∨ bobjCmp c.min m = 0 ∨ bobjCmp c.max m = 0 then
      (.errCantSplit, st)
    else
      let s : ChunkData :=
        { ns := c.ns, min := m, max := c.max, shard := c.shard,
          lastmod := 0, modified := true, dataWritten := 0 }
      let c2 := { c with max := m, modified := true, lastmod := 0 }
      let chunks2 := (st.chunks.set ci c2) ++ [s]
      let cm1 := mapInsert st.chunkMap s.max st.chunks.length
      let cm2 := mapInsert cm1 m ci
      (.ok st.chunks.length, ⟨chunks2, cm2⟩)

/-- `ChunkManager::getVersion(shard)` (chunk.cpp lines 803-820): the maximal
`lastmod` over the chunks living on `shard`, `0` if there are none. -/
def getVersionForShard (chunks : List ChunkData) (s : Nat) : Nat :=
  chunks.foldl
    (fun mx c => if c.shard = s then (if mx < c.lastmod then c.lastmod else mx) else mx)
    0

/-- `ChunkManager::save()` as `moveAndCommit` relies on it: each modified
chunk is persisted in chunk-vector order and receives a fresh server-assigned
`lastmod`.  The config server's timestamp stream is modelled by `assign`
applied to a running counter `tick`; the claims proved below hold for every
such stream. -/
def saveChunks (assign : Nat → Nat) (tick : Nat) :
    List ChunkData → List ChunkData × Nat
  | [] => ([], tick)
  | c :: rest =>
    if c.modified then
      let res := saveChunks assign (tick + 1) rest
      ({ c with lastmod := assign tick, modified := false } :: res.1, res.2)
    else
      let res := saveChunks assign tick rest
      (c :: res.1, res.2)

/-- `ChunkManager::findChunkOnServer(shard)` followed by `_markModified()`
(chunk.cpp lines 228-230, 604-614): the first chunk in vector order living on
`shard`, if any, is marked modified with `lastmod := 0`. -/
def markFirstOnShard (chunks : List ChunkData) (s : Nat) : List ChunkData :=
  match chunks.findIdx? (fun c => c.shard == s) with
  | none => chunks
  | some i =>
    chunks.set i
      { chunks.getD i default with modified := true, lastmod := 0 }

/-- The chunk vector after `setShard(to)` (reassign shard, mark modified) and
the bump of one remaining chunk on the source shard, i.e. the state
`moveAndCommit` passes to its first `_manager->save()`. -/
def moveReassigned (chunks : List ChunkData) (ci : Nat) (dest : Nat) :
    List ChunkData :=
  let c := chunks.getD ci default
  markFirstOnShard
    (chunks.set ci { c with shard := dest, modified := true, lastmod := 0 })
    c.shard

/-- Outcome of `Chunk::moveAndCommit(to)` (chunk.cpp lines 186-270).
`errMoveToSelf` is `uassert 10167`; `errStartFailed`/`errFinishFailed` are
the `return false` paths of the two `movechunk` commands;
`fatalVersionNotHigher` is `uassert 10168` ("version has to be higher").
`ok v savedAgain` reports the `newVersion` sent in `movechunk.finish` and
whether the zero-version branch saved the manager a second time. -/
inductive MoveOutcome where
  | errMoveToSelf
  | errStartFailed
  | fatalVersionNotHigher
  | errFinishFailed (sentVersion : Nat)
  | ok (sentVersion : Nat) (savedAgain : Bool)
deriving DecidableEq, Repr

/-- The first `_manager->save()` of `moveAndCommit`: persisting the
reassigned chunk vector. -/
def moveSave1 (chunks : List ChunkData) (ci dest : Nat) (assign : Nat → Nat)
    (tick : Nat) : List ChunkData × Nat :=
  saveChunks assign tick (moveReassigned chunks ci dest)

/-- `Chunk::moveAndCommit(to)` on chunk index `ci`.  `startOk`/`finishOk` are
the outcomes of the backend `movechunk.start`/`movechunk.finish` commands;
`assign`/`tick` model the config server's timestamp stream used by `save`. -/
def moveAndCommit (chunks : List ChunkData) (ci : Nat) (dest : Nat)
    (startOk finishOk : Bool) (assign : Nat → Nat) (tick : Nat) :
    MoveOutcome × List ChunkData × Nat :=
  let c := chunks.getD ci default
  if c.shard = dest then (.errMoveToSelf, chunks, tick)
  else
    let oldVersion := getVersionForShard chunks c.shard
    if ¬startOk then (.errStartFailed, chunks, tick)
    else
      let save1 := moveSave1 chunks ci dest assign tick
      let newV := getVersionForShard save1.1 c.shard
      if newV = 0 ∧ 0 < oldVersion then
        -- newVersion = oldVersion; newVersion++; _manager->save();
        let save2 := saveChunks assign save1.2 save1.1
        if ¬finishOk then (.errFinishFailed (oldVersion + 1), save2.1, save2.2)
        else (.ok (oldVersion + 1) true, save2.1, save2.2)
      else if newV ≤ oldVersion then (.fatalVersionNotHigher, save1.1, save1.2)
      else if ¬finishOk then (.errFinishFailed newV, save1.1, save1.2)
      else (.ok newV false, save1.1, save1.2)

/-- `Chunk::genID(ns, o)` (chunk.cpp lines 413-424): the string
`ns ++ "-" ++ concat over the fields of (fieldName ++ "_" ++ value text)`.
Strings are modelled as `List Char`; the BSON element rendering
`e.toString(false)` is the parameter `render` over an abstract value type. -/
def fieldsEnc {V : Type} (render : V → List Char)
    (o : List (List Char × V)) : List Char :=
  (o.map (fun p => p.1 ++ ['_'] ++ render p.2)).flatten

def genID {V : Type} (render : V → List Char) (ns : List Char)
    (o : List (List Char × V)) : List Char :=
  ns ++ ['-'] ++ fieldsEnc render o

/-- Rendering of the two-valued test payload used in concrete `genID`
instances: `false ↦ "0"`, `true ↦ "1"` (both are valid renderings of the
numeric BSON elements `{.. : 0}`, `{.. : 1}`). -/
def renderBool (b : Bool) : List Char := if b then ['1'] else ['0']

/-- A field name as `genID` injectivity needs it: nonempty, not starting
with a digit, containing no underscore. -/
def goodName : List Char → Prop
  | [] => False
  | c :: rest => c.isDigit = false ∧ '_' ∉ (c :: rest)

instance : DecidablePred goodName := fun nm => by
  cases nm <;> unfold goodName <;> infer_instance

/-- One slot of the fixed hash table (`hashtab.h`):
`struct Node { int hash; Key k; Type value; }`, with `hash == 0` marking an
unused slot (`inUse()` is `hash != 0`). -/
structure HNode (K V : Type) where
  hash : Int
  k : K
  value : V
deriving DecidableEq, Repr

instance {K V : Type} [Inhabited K] [Inhabited V] : Inhabited (HNode K V) :=
  ⟨⟨0, default, default⟩⟩

/-- `nodes(i)` of the hash table: slot `i` of the buffer.  All probes stay
below `n = buf.length`, so the default is never produced by the verified
calls. -/
def nodeAt {K V : Type} [Inhabited K] [Inhabited V]
    (buf : List (HNode K V)) (i : Nat) : HNode K V :=
  buf.getD i default

/-- Result of `HashTable::_find(k, found)`: a key hit (`found = true`), the
first unused slot seen when the chain limit is reached (`found = false`,
index ≥ 0), or `-1` ("table full" / chain exhausted with no unused slot). -/
inductive FindRes where
  | found (i : Nat)
  | slot (i : Nat)
  | full
deriving DecidableEq, Repr

/-- The probe loop of `HashTable::_find` (hashtab.h lines 64-97).  One
iteration: record the first unused slot, check for a key hit
(`nodes(i).hash == h && nodes(i).k == k`), advance `i = (i+1) % n`, stop with
`full` when the probe wraps to `start`, and stop with the first-unused
fallback (or `full`) when the chain reaches `maxChain`.  The loop always
exits within `n` iterations (the wrap check), so it is run with fuel `n`;
`none` is the unreachable out-of-fuel case. -/
def findAux {K V : Type} [DecidableEq K] [Inhabited K] [Inhabited V]
    (buf : List (HNode K V)) (n mc : Nat) (h : Int) (k : K) (start : Nat) :
    Nat → Nat → Option Nat → Nat → Option FindRes
  | _, _, _, 0 => none
  | i, chain, fnu, fuel + 1 =>
    let nd := nodeAt buf i
    let fnu' := if nd.hash = 0 ∧ fnu = none then some i else fnu
    if nd.hash = h ∧ nd.k = k then some (.found i)
    else
      let chain' := chain + 1
      let i' := (i + 1) % n
      if i' = start then some .full
      else if mc ≤ chain' then
        match fnu' with
        | some j => some (.slot j)
        | none => some .full
      else findAux buf n mc h k start i' chain' fnu' fuel

/-- `HashTable::_find(k, found)`.  `n = buflen / sizeof(Node)` (forced odd by
the constructor) is taken as the buffer length; `maxChain = (int)(n * 0.05)`
is `n / 20` (the double rounding never changes the truncation for int-range
`n`).  The key contract `Key::hash() > 0` makes `h % n` the Euclidean
remainder. -/
def tblFind {K V : Type} [DecidableEq K] [Inhabited K] [Inhabited V]
    (hashF : K → Int) (buf : List (HNode K V)) (k : K) : Option FindRes :=
  let n := buf.length
  let h := hashF k
  let start := (h % (n : Int)).toNat
  findAux buf n (n / 20) h k start start 0 none n

/-- `HashTable::get(k)` (hashtab.h lines 115-121): the value at the hit slot,
absent when `found` is false. -/
def tblGet {K V : Type} [DecidableEq K] [Inhabited K] [Inhabited V]
    (hashF : K → Int) (buf : List (HNode K V)) (k : K) : Option V :=
  match tblFind hashF buf k with
  | some (.found i) => some (nodeAt buf i).value
  | _ => none

/-- `HashTable::put(k, value)` (hashtab.h lines 142-157): `false` when the
table is full; on a key hit only the value is overwritten (the source then
asserts `n.hash == k.hash()`, which holds); on a fallback slot the key and
its hash are installed before the value. -/
def tblPut {K V : Type} [DecidableEq K] [Inhabited K] [Inhabited V]
    (hashF : K → Int) (buf : List (HNode K V)) (k : K) (v : V) :
    Bool × List (HNode K V) :=
  match tblFind hashF buf k with
  | some (.found i) => (true, buf.set i { nodeAt buf i with value := v })
  | some (.slot i) => (true, buf.set i ⟨hashF k, k, v⟩)
  | _ => (false, buf)

/-- `HashTable::kill(k)` (hashtab.h lines 123-131): on a key hit, run the
key's `kill()` hook (the external parameter `killKey`) and clear the slot's
hash; otherwise (`found` false, including `i >= 0` fallback slots) leave the
table unchanged. -/
def tblKill {K V : Type} [DecidableEq K] [Inhabited K] [Inhabited V]
    (killKey : K → K) (hashF : K → Int) (buf : List (HNode K V)) (k : K) :
    List (HNode K V) :=
  match tblFind hashF buf k with
  | some (.found i) =>
    buf.set i { nodeAt buf i with k := killKey (nodeAt buf i).k, hash := 0 }
  | _ => buf

section Routing

/-- One coalesced `ChunkRange` as routing sees it: the `[rmin, rmax)` bounds
and the owning shard.  The `ChunkRangeMap` key of a range always equals its
`rmax` (assertValid invariant 3), so the sorted range map is kept as a list
of `RangeInfo` sorted by `rmax`.  The key type is abstract: `BSONObj` under
`woCompare`/`BSONObjCmp` is a decidable total order. -/
structure RangeInfo (K : Type) where
  rmin : K
  rmax : K
  shard : Nat
deriving DecidableEq, Repr

/-- One entry of the `ChunkMap` (`max key → chunk`): the chunk's bounds and
shard; the map key equals `cmax`, so the sorted chunk map is a list of
`ChunkEnt` sorted by `cmax`. -/
structure ChunkEnt (K : Type) where
  cmin : K
  cmax : K
  shard : Nat
deriving DecidableEq, Repr

variable {K : Type} [LinearOrder K]

/-- `upper_bound` position in the range map: index of the first range with
`rmax > k` (`idx.length` for `end()`). -/
def ubIdx (idx : List (RangeInfo K)) (k : K) : Nat :=
  idx.findIdx (fun r => decide (k < r.rmax))

/-- `lower_bound` position in the range map: index of the first range with
`rmax ≥ k` (`idx.length` for `end()`). -/
def lbIdx (idx : List (RangeInfo K)) (k : K) : Nat :=
  idx.findIdx (fun r => decide (k ≤ r.rmax))

/-- Modelled from the spec: one interval of a `FieldRange`
(`db/queryutil.h`, not under `src/`): bounds with inclusivity flags, as
`_getChunksForQuery` reads them (`fi.lower_.bound_`, `fi.lower_.inclusive_`,
symmetrically for upper). -/
structure FieldInterval (K : Type) where
  lowerBound : K
  lowerIncl : Bool
  upperBound : K
  upperIncl : Bool
deriving DecidableEq, Repr

/-- Modelled from the spec: the observations `_getChunksForQuery` makes of a
`FieldRange` (`db/queryutil.h`, not under `src/`): `getSpecial().empty()`,
`empty()`, `equality()` (with `min()` as the equality value),
`nontrivial()`, and `intervals()` restricted to the shard key's first
field. -/
structure FieldRange (K : Type) where
  isSpecial : Bool
  isEmpty : Bool
  isEquality : Bool
  eqVal : K
  isNontrivial : Bool
  intervals : List (FieldInterval K)
deriving DecidableEq, Repr

/-- The range slice one `FieldInterval` contributes (chunk.cpp lines
643-657): `min = inclusive_lo ? upper_bound(lo) : lower_bound(lo)` and
symmetrically for `hi`; `assert(min != end)`; the `++max` turns the closed
iterator range into the half-open `[min, max+1)`, running to the end of the
map when `max == end()`. -/
def sliceFor (idx : List (RangeInfo K)) (fi : FieldInterval K) :
    Option (List (RangeInfo K)) :=
  let lo := if fi.lowerIncl then ubIdx idx fi.lowerBound
            else lbIdx idx fi.lowerBound
  let hi := if fi.upperIncl then ubIdx idx fi.upperBound
            else lbIdx idx fi.upperBound
  if lo = idx.length then none
  else some ((idx.drop lo).take (hi + 1 - lo))

/-- Insertion into the `set<shared_ptr<ChunkRange>, ChunkCmp>` of the
interval loop: ordered by the range's min key; an element whose min ties
with one already present is not inserted (`std::set` keeps the existing
element). -/
def insertByMin (s : List (RangeInfo K)) (r : RangeInfo K) :
    List (RangeInfo K) :=
  match s with
  | [] => [r]
  | a :: rest =>
    if r.rmin < a.rmin then r :: a :: rest
    else if a.rmin < r.rmin then a :: insertByMin rest r
    else a :: rest

/-- The slices of all intervals, `none` as soon as one interval fails the
`assert(min != end)`. -/
def gatherSlices (idx : List (RangeInfo K)) :
    List (FieldInterval K) → Option (List (List (RangeInfo K)))
  | [] => some []
  | fi :: rest =>
    match sliceFor idx fi, gatherSlices idx rest with
    | some s, some ss => some (s :: ss)
    | _, _ => none

/-- Result of `ChunkManager::_getChunksForQuery`: the chunks vector it
filled (return value = its size), the `-1` "all chunks" signal, the
`uassert 13088` rejection of special queries, or a failed `assert`
(including the undefined dereference of `upper_bound == end()` in the
equality case). -/
inductive QueryChunksRes (K : Type) where
  | countRes (rs : List (RangeInfo K))
  | allChunks
  | errSpecial
  | assertFail
deriving DecidableEq, Repr

/-- `ChunkManager::_getChunksForQuery(chunks, query)` (chunk.cpp lines
616-663), taking the already-compiled `FieldRange` of the shard key's first
field as input. -/
def getChunksForQuery (idx : List (RangeInfo K)) (range : FieldRange K) :
    QueryChunksRes K :=
  if range.isSpecial then .errSpecial
  else if range.isEmpty then .countRes []
  else if range.isEquality then
    match (idx.drop (ubIdx idx range.eqVal)).head? with
    | some r => .countRes [r]
    | none => .assertFail
  else if ¬range.isNontrivial then .allChunks
  else
    match gatherSlices idx range.intervals with
    | some ss => .countRes (ss.flatten.foldl insertByMin [])
    | none => .assertFail

/-- The body of `ChunkRangeManager::_insertRange`'s outer loop (chunk.cpp
lines 983-993) with the currently open range `[rmin, rmax)` on shard `sh`:
extend the run while the next chunk has the same shard, else close the range
and start a new run. -/
def insertRangeGo (rmin rmax : K) (sh : Nat) :
    List (ChunkEnt K) → List (RangeInfo K)
  | [] => [⟨rmin, rmax, sh⟩]
  | c :: rest =>
    if c.shard = sh then insertRangeGo rmin c.cmax sh rest
    else ⟨rmin, rmax, sh⟩ :: insertRangeGo c.cmin c.cmax c.shard rest

/-- `ChunkRangeManager::_insertRange(begin, end)` over a whole chunk list:
coalesce maximal same-shard runs into ranges (each `ChunkRange` takes `min`
from its first chunk and `max` from its last).  `reloadAll` (chunk.cpp lines
976-981) is clear-then-`_insertRange`, i.e. exactly this. -/
def insertRangeAll : List (ChunkEnt K) → List (RangeInfo K)
  | [] => []
  | c :: rest => insertRangeGo c.cmin c.cmax c.shard rest

/-- The "merge low-end if possible" block of `reloadRange` (chunk.cpp lines
957-967): `low = upper_bound(min)` (whose `assert(low != end)` is `none`),
`a = prior(low)` when `low` is not the first entry, and if `a` and `b = low`
sit on the same shard they are replaced by the merged `ChunkRange(*a, *b)`
(min of `a`, max of `b`, shard of `a`). -/
def mergeLowEnd (mn : K) (r1 : List (RangeInfo K)) :
    Option (List (RangeInfo K)) :=
  match (r1.dropWhile (fun r => decide (r.rmax ≤ mn))).head? with
  | none => none
  | some b =>
    let p2 := r1.takeWhile (fun r => decide (r.rmax ≤ mn))
    some (match p2.getLast? with
      | none => r1
      | some a =>
        if a.shard = b.shard then
          p2.dropLast ++ ⟨a.rmin, b.rmax, a.shard⟩ ::
            (r1.dropWhile (fun r => decide (r.rmax ≤ mn))).tail
        else r1)

/-- The "merge high-end if possible" block of `reloadRange` (chunk.cpp lines
971-983): `high = lower_bound(max)`; when `lower_bound` is `end()` the
source would dereference `boost::next(end())` (modelled `none`); when `high`
is the last entry nothing happens; else `high` and its successor are merged
when they share a shard. -/
def mergeHighEnd (mx : K) (r2 : List (RangeInfo K)) :
    Option (List (RangeInfo K)) :=
  match r2.dropWhile (fun r => decide (r.rmax < mx)) with
  | [] => none
  | [_] => some r2
  | h2 :: b2 :: rest2 =>
    if h2.shard = b2.shard then
      some (r2.takeWhile (fun r => decide (r.rmax < mx)) ++
        ⟨h2.rmin, b2.rmax, h2.shard⟩ :: rest2)
    else some r2

/-- `ChunkRangeManager::reloadRange(chunks, min, max)` (chunk.cpp lines
913-974) on the sorted lists.  The `assert`s of the source (`low`/`high`
found, `begin`/`end` found in the chunk map, resulting map nonempty, and the
end-dereference the high-end merge would perform when `lower_bound(max)` is
`end()`) are modelled as `none`; the `DEV assertValid()` calls are
debug-only and have no observable effect.  `std::map` iterators translate
to `takeWhile`/`dropWhile` splits of the sorted lists; the two merge blocks
are `mergeLowEnd` and `mergeHighEnd`. -/
def reloadRange (ranges : List (RangeInfo K)) (chunks : List (ChunkEnt K))
    (mn mx : K) : Option (List (RangeInfo K)) :=
  if ranges = [] then some (insertRangeAll chunks)
  else
    match (ranges.dropWhile (fun r => decide (r.rmax ≤ mn))).head? with
    | none => none
    | some low =>
      match (ranges.dropWhile (fun r => decide (r.rmax < mx))).head? with
      | none => none
      | some high =>
        let cb := chunks.dropWhile (fun c => decide (c.cmax ≤ low.rmin))
        if cb = [] then none
        else
          match (chunks.dropWhile
              (fun c => decide (c.cmax < high.rmax))).head? with
          | none => none
          | some ce =>
            let slice :=
              cb.takeWhile (fun c => decide (c.cmax < high.rmax)) ++ [ce]
            let pre := ranges.takeWhile (fun r => decide (r.rmax ≤ mn))
            let post := (ranges.dropWhile (fun r => decide (r.rmax < mx))).tail
            let r1 := pre ++ insertRangeAll slice ++ post
            if r1 = [] then none
            else
              match mergeLowEnd mn r1 with
              | none => none
              | some r2 => mergeHighEnd mx r2

/-- Contiguous coverage of `[lo, hi)` by a chunk list: each chunk starts
where the previous one ended, bounds strictly increase.  This is the chunk
map validity invariant of the data model (ranges pairwise disjoint, covering
exactly, keyed by max). -/
def covers : K → List (ChunkEnt K) → K → Prop
  | lo, [], hi => lo = hi
  | lo, c :: rest, hi => c.cmin = lo ∧ lo < c.cmax ∧ covers c.cmax rest hi

instance instDecCovers : ∀ (lo : K) (l : List (ChunkEnt K)) (hi : K),
    Decidable (covers lo l hi)
  | lo, [], hi => by unfold covers; infer_instance
  | lo, c :: rest, hi => by
    unfold covers
    have := instDecCovers c.cmax rest hi
    infer_instance

/-- Contiguous coverage of `[lo, hi)` by a range list (the shape
`assertValid` checks: first min is `lo`, no gaps or overlaps, last max is
`hi`). -/
def rcovers : K → List (RangeInfo K) → K → Prop
  | lo, [], hi => lo = hi
  | lo, r :: rest, hi => r.rmin = lo ∧ lo < r.rmax ∧ rcovers r.rmax rest hi

instance instDecRcovers : ∀ (lo : K) (l : List (RangeInfo K)) (hi : K),
    Decidable (rcovers lo l hi)
  | lo, [], hi => by unfold rcovers; infer_instance
  | lo, r :: rest, hi => by
    unfold rcovers
    have := instDecRcovers r.rmax rest hi
    infer_instance

/-- The closed ranges `insertRangeGo` emits before its currently open run
(`insertRangeGo = goF ++ [goCarry]`). -/
def goF (rmin rmax : K) (sh : Nat) :
    List (ChunkEnt K) → List (RangeInfo K)
  | [] => []
  | c :: rest =>
    if c.shard = sh then goF rmin c.cmax sh rest
    else ⟨rmin, rmax, sh⟩ :: goF c.cmin c.cmax c.shard rest

/-- The open run `insertRangeGo` still carries after consuming its input. -/
def goCarry (rmin rmax : K) (sh : Nat) :
    List (ChunkEnt K) → RangeInfo K
  | [] => ⟨rmin, rmax, sh⟩
  | c :: rest =>
    if c.shard = sh then goCarry rmin c.cmax sh rest
    else goCarry c.cmin c.cmax c.shard rest

/-- The max key of the first range `insertRangeGo` emits: the open run's
`rmax` extended over the leading same-shard chunks. -/
def goHeadEnd (rmax : K) (sh : Nat) : List (ChunkEnt K) → K
  | [] => rmax
  | c :: rest => if c.shard = sh then goHeadEnd c.cmax sh rest else rmax

/-- The ranges `insertRangeGo` emits after its first range. -/
def goTail (sh : Nat) : List (ChunkEnt K) → List (RangeInfo K)
  | [] => []
  | c :: rest =>
    if c.shard = sh then goTail sh rest
    else insertRangeGo c.cmin c.cmax c.shard rest

end Routing

-- ===================================================================
-- Theorems
-- ===================================================================

theorem bobjCmp_self (a : BObj) : bobjCmp a a = 0 :=
  (bobjCmp_eq_zero_iff a a).mpr rfl

/-- C10: `Chunk::operator==` returns true iff the two chunks' min keys and
max keys are equal under the shard-key comparator; the owning shard, the
namespace, the version (`lastmod`), the modified flag and the data-written
counter are all ignored, so two chunks covering the same range on different
shards compare equal. -/
theorem C10_chunkEq_minmax_only (a b : ChunkData) :
    (chunkEqb a b = true ↔
      bobjCmp a.min b.min = 0 ∧ bobjCmp a.max b.max = 0)
    ∧ (∀ ns2 sh2 lm2 md2 dw2,
        chunkEqb a ⟨ns2, a.min, a.max, sh2, lm2, md2, dw2⟩ = true) := by
  constructor
  · simp [chunkEqb]
  · intro ns2 sh2 lm2 md2 dw2
    simp [chunkEqb, bobjCmp_self]

/-- C5: `Chunk::splitIfShould` accumulates `dataWritten`, computes the
threshold `myMax` (`MaxChunkSize`, 10% less when either end is a sentinel),
and returns false when the accumulated counter is under `myMax/5`, when the
split lock is unavailable, when the picked split point is empty or equal to
an endpoint, or when the physical size is under `myMax`; only otherwise does
it split at the chosen point. -/
theorem C5_splitIfShould_characterization (cmin cmax : BObj)
    (dw0 written maxCS : Int) (lockAvail : Bool) (splitPoint : BObj)
    (physSize : Int) :
    (dw0 + written < Int.tdiv (splitThreshold maxCS cmin cmax) 5 →
      splitIfShould cmin cmax dw0 written maxCS lockAvail splitPoint physSize
        = ⟨false, dw0 + written, none⟩)
    ∧ (Int.tdiv (splitThreshold maxCS cmin cmax) 5 ≤ dw0 + written →
        lockAvail = false →
      splitIfShould cmin cmax dw0 written maxCS lockAvail splitPoint physSize
        = ⟨false, dw0 + written, none⟩)
    ∧ (Int.tdiv (splitThreshold maxCS cmin cmax) 5 ≤ dw0 + written →
        lockAvail = true →
        (splitPoint = none ∨ splitPoint = cmin ∨ splitPoint = cmax) →
      splitIfShould cmin cmax dw0 written maxCS lockAvail splitPoint physSize
        = ⟨false, 0, none⟩)
    ∧ (Int.tdiv (splitThreshold maxCS cmin cmax) 5 ≤ dw0 + written →
        lockAvail = true →
        splitPoint ≠ none → splitPoint ≠ cmin → splitPoint ≠ cmax →
        physSize < splitThreshold maxCS cmin cmax →
      splitIfShould cmin cmax dw0 written maxCS lockAvail splitPoint physSize
        = ⟨false, 0, none⟩)
    ∧ (Int.tdiv (splitThreshold maxCS cmin cmax) 5 ≤ dw0 + written →
        lockAvail = true →
        splitPoint ≠ none → splitPoint ≠ cmin → splitPoint ≠ cmax →
        splitThreshold maxCS cmin cmax ≤ physSize →
      splitIfShould cmin cmax dw0 written maxCS lockAvail splitPoint physSize
        = ⟨true, 0, some splitPoint⟩) := by
  refine ⟨?_, ?_, ?_, ?_, ?_⟩
  · intro h1
    simp only [splitIfShould]
    rw [if_pos h1]
  · intro h1 h2
    simp only [splitIfShould]
    rw [if_neg (by omega), if_pos (by simp [h2])]
  · intro h1 h2 h3
    have h3' : splitPoint = none ∨ bobjCmp cmin splitPoint = 0 ∨
        bobjCmp cmax splitPoint = 0 := by
      rcases h3 with h | h | h
      · exact Or.inl h
      · exact Or.inr (Or.inl ((bobjCmp_eq_zero_iff _ _).mpr h.symm))
      · exact Or.inr (Or.inr ((bobjCmp_eq_zero_iff _ _).mpr h.symm))
    simp only [splitIfShould]
    rw [if_neg (by omega), if_neg (by simp [h2]), if_pos h3']
  · intro h1 h2 h3 h4 h5 h6
    have hpt : ¬(splitPoint = none ∨ bobjCmp cmin splitPoint = 0 ∨
        bobjCmp cmax splitPoint = 0) := by
      push_neg
      refine ⟨h3, ?_, ?_⟩
      · intro h
        exact h4 ((bobjCmp_eq_zero_iff _ _).mp h).symm
      · intro h
        exact h5 ((bobjCmp_eq_zero_iff _ _).mp h).symm
    simp only [splitIfShould]
    rw [if_neg (by omega), if_neg (by simp [h2]), if_neg hpt, if_pos h6]
  · intro h1 h2 h3 h4 h5 h6
    have hpt : ¬(splitPoint = none ∨ bobjCmp cmin splitPoint = 0 ∨
        bobjCmp cmax splitPoint = 0) := by
      push_neg
      refine ⟨h3, ?_, ?_⟩
      · intro h
        exact h4 ((bobjCmp_eq_zero_iff _ _).mp h).symm
      · intro h
        exact h5 ((bobjCmp_eq_zero_iff _ _).mp h).symm
    simp only [splitIfShould]
    rw [if_neg (by omega), if_neg (by simp [h2]), if_neg hpt,
      if_neg (by omega)]

theorem C5_splitIfShould_witness :
    (Int.tdiv (splitThreshold 10 (some (.intV 0)) (some (.intV 100))) 5
        ≤ 0 + 5)
    ∧ splitIfShould (some (.intV 0)) (some (.intV 100)) 0 5 10 true
        (some (.intV 50)) 10 = ⟨true, 0, some (some (.intV 50))⟩ :=
  ⟨by decide,
   (C5_splitIfShould_characterization (some (.intV 0)) (some (.intV 100))
      0 5 10 true (some (.intV 50)) 10).2.2.2.2
     (by decide) rfl (by decide) (by decide) (by decide) (by decide)⟩

/-- C9: whenever `splitIfShould` gets past the accumulation gate and
acquires the process-global split lock, it resets `_dataWritten` to 0 before
any further check, so every exit after lock acquisition (empty/endpoint split
point, undersized physical size, and the successful split) leaves the
counter at 0. -/
theorem C9_dataWritten_reset_after_lock (cmin cmax : BObj)
    (dw0 written maxCS : Int) (splitPoint : BObj) (physSize : Int)
    (hgate : Int.tdiv (splitThreshold maxCS cmin cmax) 5 ≤ dw0 + written) :
    (splitIfShould cmin cmax dw0 written maxCS true splitPoint
        physSize).dataWritten = 0 := by
  simp only [splitIfShould]
  rw [if_neg (by omega), if_neg (by simp)]
  split
  · rfl
  split
  · rfl
  · rfl

theorem C9_dataWritten_reset_witness :
    (Int.tdiv (splitThreshold 10 (some (.intV 0)) (some (.intV 100))) 5
        ≤ 0 + 5)
    ∧ (splitIfShould (some (.intV 0)) (some (.intV 100)) 0 5 10 true
        (some (.intV 0)) 3).dataWritten = 0 :=
  ⟨by decide,
   C9_dataWritten_reset_after_lock (some (.intV 0)) (some (.intV 100))
     0 5 10 (some (.intV 0)) 3 (by decide)⟩

theorem bvCmp_intV_antisymm (a b : Int) :
    bvCmp (.intV a) (.intV b) = - bvCmp (.intV b) (.intV a) := by
  simp only [bvCmp]
  rcases lt_trichotomy a b with h | h | h
  · rw [if_pos h, if_neg (by omega), if_neg (by omega)]
  · subst h
    simp
  · rw [if_neg (by omega), if_neg (by omega), if_pos h]
    decide

theorem bvCmp_antisymm (a b : BVal) : bvCmp a b = - bvCmp b a := by
  cases a <;> cases b <;>
    first
      | exact bvCmp_intV_antisymm _ _
      | rfl

theorem bobjCmp_antisymm (a b : BObj) : bobjCmp a b = - bobjCmp b a := by
  cases a <;> cases b <;>
    first
      | exact bvCmp_antisymm _ _
      | rfl

theorem bobjCmp_none_right (a : BObj) : 0 ≤ bobjCmp a none := by
  cases a <;> simp [bobjCmp]

/-- C2: with the namespace lock obtained, `Chunk::split(m)` fails with the
"can't split" user error (`uassert 13003`) and leaves the chunk, the chunk
list and the chunk map unchanged whenever `m` is empty, equal to the chunk's
min, or equal to its max; for any `m` strictly between min and max it
succeeds.  (The lock is checked first in the source — `uassert 10166` — so
the lock hypothesis is part of both directions.) -/
theorem C2_split_precondition (st : MgrState) (ci : Nat) (m : BObj) :
    ((m = none ∨ m = (st.chunks.getD ci default).min ∨
        m = (st.chunks.getD ci default).max) →
      splitChunk st ci m true = (.errCantSplit, st))
    ∧ (bobjCmp (st.chunks.getD ci default).min m < 0 →
       bobjCmp m (st.chunks.getD ci default).max < 0 →
       ∃ idx st2, splitChunk st ci m true = (.ok idx, st2)) := by
  constructor
  · intro hbad
    have hbad' : m = none ∨
        bobjCmp (st.chunks.getD ci default).min m = 0 ∨
        bobjCmp (st.chunks.getD ci default).max m = 0 := by
      rcases hbad with h | h | h
      · exact Or.inl h
      · exact Or.inr (Or.inl ((bobjCmp_eq_zero_iff _ _).mpr h.symm))
      · exact Or.inr (Or.inr ((bobjCmp_eq_zero_iff _ _).mpr h.symm))
    simp only [splitChunk]
    rw [if_neg (by simp), if_pos hbad']
  · intro hlo hhi
    have hm : m ≠ none := by
      intro h
      subst h
      have := bobjCmp_none_right (st.chunks.getD ci default).min
      omega
    have hmin : bobjCmp (st.chunks.getD ci default).min m ≠ 0 := by omega
    have hmax : bobjCmp (st.chunks.getD ci default).max m ≠ 0 := by
      have := bobjCmp_antisymm m (st.chunks.getD ci default).max
      omega
    simp only [splitChunk]
    rw [if_neg (by simp), if_neg (by tauto)]
    exact ⟨_, _, rfl⟩

theorem C2_split_precondition_witness :
    (splitChunk
        ⟨[⟨"t.c", some (.intV 0), some (.intV 100), 0, 1, false, 0⟩],
         [(some (.intV 100), 0)]⟩
        0 (some (.intV 0)) true).1 = .errCantSplit
    ∧ (splitChunk
        ⟨[⟨"t.c", some (.intV 0), some (.intV 100), 0, 1, false, 0⟩],
         [(some (.intV 100), 0)]⟩
        0 (some (.intV 0)) true).2
      = ⟨[⟨"t.c", some (.intV 0), some (.intV 100), 0, 1, false, 0⟩],
         [(some (.intV 100), 0)]⟩
    ∧ ∃ idx st2,
        splitChunk
          ⟨[⟨"t.c", some (.intV 0), some (.intV 100), 0, 1, false, 0⟩],
           [(some (.intV 100), 0)]⟩
          0 (some (.intV 50)) true = (.ok idx, st2) := by
  refine ⟨?_, ?_, ?_⟩
  · rw [(C2_split_precondition
      ⟨[⟨"t.c", some (.intV 0), some (.intV 100), 0, 1, false, 0⟩],
       [(some (.intV 100), 0)]⟩ 0 (some (.intV 0))).1 (by decide)]
  · rw [(C2_split_precondition
      ⟨[⟨"t.c", some (.intV 0), some (.intV 100), 0, 1, false, 0⟩],
       [(some (.intV 100), 0)]⟩ 0 (some (.intV 0))).1 (by decide)]
  · exact (C2_split_precondition
      ⟨[⟨"t.c", some (.intV 0), some (.intV 100), 0, 1, false, 0⟩],
       [(some (.intV 100), 0)]⟩ 0 (some (.intV 50))).2
      (by decide) (by decide)

/-- C3: for every successful `Chunk::moveAndCommit(to)`, the `newVersion`
sent in `movechunk.finish` is strictly greater than the source shard's
version before the move; when the post-save source version is zero while the
old version was positive, the sent version is `oldVersion + 1` and the
manager is saved a second time; otherwise a post-save version that is not
strictly greater than the old version fails the fatal `uassert 10168`. -/
theorem C3_moveAndCommit_version (chunks : List ChunkData) (ci : Nat)
    (dest : Nat) (startOk finishOk : Bool) (assign : Nat → Nat)
    (tick : Nat) :
    (∀ v again st' t',
      moveAndCommit chunks ci dest startOk finishOk assign tick
          = (.ok v again, st', t') →
      getVersionForShard chunks (chunks.getD ci default).shard < v)
    ∧ ((chunks.getD ci default).shard ≠ dest → startOk = true →
        finishOk = true →
       getVersionForShard (moveSave1 chunks ci dest assign tick).1
          (chunks.getD ci default).shard = 0 →
       0 < getVersionForShard chunks (chunks.getD ci default).shard →
       moveAndCommit chunks ci dest startOk finishOk assign tick
         = (.ok (getVersionForShard chunks (chunks.getD ci default).shard + 1)
              true,
            (saveChunks assign (moveSave1 chunks ci dest assign tick).2
               (moveSave1 chunks ci dest assign tick).1).1,
            (saveChunks assign (moveSave1 chunks ci dest assign tick).2
               (moveSave1 chunks ci dest assign tick).1).2))
    ∧ ((chunks.getD ci default).shard ≠ dest → startOk = true →
       ¬(getVersionForShard (moveSave1 chunks ci dest assign tick).1
            (chunks.getD ci default).shard = 0 ∧
         0 < getVersionForShard chunks (chunks.getD ci default).shard) →
       getVersionForShard (moveSave1 chunks ci dest assign tick).1
            (chunks.getD ci default).shard
         ≤ getVersionForShard chunks (chunks.getD ci default).shard →
       moveAndCommit chunks ci dest startOk finishOk assign tick
         = (.fatalVersionNotHigher,
            (moveSave1 chunks ci dest assign tick).1,
            (moveSave1 chunks ci dest assign tick).2)) := by
  refine ⟨?_, ?_, ?_⟩
  · intro v again st' t' h
    simp only [moveAndCommit] at h
    split_ifs at h
    all_goals
      first
        | (simp at h
           done)
        | (simp only [Prod.mk.injEq, MoveOutcome.ok.injEq] at h
           obtain ⟨⟨hv, hagain⟩, hrest⟩ := h
           omega)
  · intro hself hstart hfin hzero hpos
    simp only [moveAndCommit]
    rw [if_neg hself, if_neg (by simp [hstart]), if_pos ⟨hzero, hpos⟩,
      if_neg (by simp [hfin])]
  · intro hself hstart hnz hle
    simp only [moveAndCommit]
    rw [if_neg hself, if_neg (by simp [hstart]), if_neg hnz, if_pos hle]

theorem C3_moveAndCommit_version_witness :
    (moveAndCommit [⟨"t.c", some .minKey, some .maxKey, 0, 5, false, 0⟩]
        0 1 true true (fun t => t + 10) 0).1 = .ok 6 true
    ∧ getVersionForShard
        [⟨"t.c", some .minKey, some .maxKey, 0, 5, false, 0⟩] 0 < 6
    ∧ (moveAndCommit
        [⟨"t.c", some .minKey, some (.intV 7), 0, 5, false, 0⟩,
         ⟨"t.c", some (.intV 7), some .maxKey, 0, 7, false, 0⟩]
        0 1 true true (fun _ => 3) 0).1 = .fatalVersionNotHigher := by
  refine ⟨?_, ?_, ?_⟩
  · rw [(C3_moveAndCommit_version
        [⟨"t.c", some .minKey, some .maxKey, 0, 5, false, 0⟩]
        0 1 true true (fun t => t + 10) 0).2.1
        (by decide) rfl rfl (by decide) (by decide)]
    decide
  · exact (C3_moveAndCommit_version
        [⟨"t.c", some .minKey, some .maxKey, 0, 5, false, 0⟩]
        0 1 true true (fun t => t + 10) 0).1 6 true
        [⟨"t.c", some .minKey, some .maxKey, 1, 10, false, 0⟩] 1
        (by decide)
  · rw [(C3_moveAndCommit_version
        [⟨"t.c", some .minKey, some (.intV 7), 0, 5, false, 0⟩,
         ⟨"t.c", some (.intV 7), some .maxKey, 0, 7, false, 0⟩]
        0 1 true true (fun _ => 3) 0).2.2
        (by decide) rfl (by decide) (by decide)]

/-- C1, counterexample: the claim predicts that when `upper_bound` finds a
chunk that does not contain the document, `findChunk` reloads once and
retries, so that a correct reloaded chunk map would make the lookup succeed.
In the source this branch instead reloads and immediately fails the fatal
`massert 13141`: here the stale map `[{a:0} .. MaxKey)` does not contain the
key `{a:-5}`, the reloaded map does, and the result is still the fatal
error, not the reloaded chunk. -/
theorem C1_findChunk_wrongChunk_fatal :
    findChunk
        ⟨[⟨"t.c", some (.intV 0), some .maxKey, 0, 1, false, 0⟩],
         [(some .maxKey, 0)]⟩
        ⟨[⟨"t.c", some .minKey, some .maxKey, 0, 2, false, 0⟩],
         [(some .maxKey, 0)]⟩
        (some (.intV (-5))) = .fatalWrongChunk
    ∧ findChunkOnce
        ⟨[⟨"t.c", some .minKey, some .maxKey, 0, 2, false, 0⟩],
         [(some .maxKey, 0)]⟩
        (some (.intV (-5)))
      = .found ⟨"t.c", some .minKey, some .maxKey, 0, 2, false, 0⟩ := by
  constructor
  · rfl
  · rfl

/-- C1, amended: `findChunk` extracts the key, takes `upper_bound` and
verifies `contains`.  When a chunk is found but does not contain the
document, the result is the fatal consistency error (`massert 13141`)
immediately after a single reload — there is no retry.  Only the
no-chunk-found miss triggers the one reload-and-retry; on retry a found
chunk is returned or the same fatal error raised, and a second miss is the
`UserException 8070` failure. -/
theorem C1_findChunk_retry_behaviour (st rl : MgrState) (key : BObj) :
    (∀ e, mapUpperBound st.chunkMap key = some e →
       ((chunkContainsKey (st.chunks.getD e.2 default) key = true →
           findChunk st rl key = .found (st.chunks.getD e.2 default))
        ∧ (chunkContainsKey (st.chunks.getD e.2 default) key = false →
           findChunk st rl key = .fatalWrongChunk)))
    ∧ (mapUpperBound st.chunkMap key = none →
        ((∀ e, mapUpperBound rl.chunkMap key = some e →
           ((chunkContainsKey (rl.chunks.getD e.2 default) key = true →
               findChunk st rl key = .found (rl.chunks.getD e.2 default))
            ∧ (chunkContainsKey (rl.chunks.getD e.2 default) key = false →
               findChunk st rl key = .fatalWrongChunk)))
         ∧ (mapUpperBound rl.chunkMap key = none →
             findChunk st rl key = .errorRetryExhausted))) := by
  constructor
  · intro e he
    constructor
    · intro hc
      simp only [findChunk, findChunkOnce, he, hc, if_true]
    · intro hc
      simp only [findChunk, findChunkOnce, he, hc, Bool.false_eq_true,
        if_false]
  · intro hmiss
    constructor
    · intro e he
      constructor
      · intro hc
        simp only [findChunk, findChunkOnce, hmiss, he, hc, if_true]
      · intro hc
        simp only [findChunk, findChunkOnce, hmiss, he, hc,
          Bool.false_eq_true, if_false]
    · intro hmiss2
      simp only [findChunk, findChunkOnce, hmiss, hmiss2]

theorem C1_findChunk_retry_witness :
    findChunk
        ⟨[⟨"t.c", some (.intV 0), some (.intV 10), 0, 1, false, 0⟩],
         [(some (.intV 10), 0)]⟩
        ⟨[⟨"t.c", some .minKey, some .maxKey, 0, 2, false, 0⟩],
         [(some .maxKey, 0)]⟩
        (some (.intV 25))
      = .found ⟨"t.c", some .minKey, some .maxKey, 0, 2, false, 0⟩ := by
  have h := C1_findChunk_retry_behaviour
      ⟨[⟨"t.c", some (.intV 0), some (.intV 10), 0, 1, false, 0⟩],
       [(some (.intV 10), 0)]⟩
      ⟨[⟨"t.c", some .minKey, some .maxKey, 0, 2, false, 0⟩],
       [(some .maxKey, 0)]⟩
      (some (.intV 25))
  exact ((h.2 (by decide)).1 (some .maxKey, 0) (by decide)).1 (by decide)

/-- C8, counterexample: `Chunk::genID` is not injective over `(ns, min)`.
Field names may contain `'_'`, so the one-field object `{a_1b : 1}` and the
two-field object `{a : 1, b : 1}` produce the same id `"t-a_1b_1"` for the
same namespace `"t"`. -/
theorem C8_genID_not_injective :
    genID renderBool "t".toList [("a_1b".toList, true)]
      = genID renderBool "t".toList
          [("a".toList, true), ("b".toList, true)]
    ∧ ("t".toList, [("a_1b".toList, true)])
        ≠ ("t".toList, [("a".toList, true), ("b".toList, true)]) := by
  constructor
  · rfl
  · decide

theorem list_split_first {α : Type} (c : α) (a : List α) :
    ∀ b x y : List α, c ∉ a → c ∉ b →
    a ++ c :: x = b ++ c :: y → a = b ∧ x = y := by
  induction a with
  | nil =>
    intro b x y _ hcb h
    cases b with
    | nil =>
      simpa using h
    | cons hb tb =>
      simp only [List.nil_append, List.cons_append, List.cons.injEq] at h
      rw [h.1] at hcb
      exact absurd (List.mem_cons_self hb tb) hcb
  | cons ha ta ih =>
    intro b x y hca hcb h
    cases b with
    | nil =>
      simp only [List.nil_append, List.cons_append, List.cons.injEq] at h
      rw [← h.1] at hca
      exact absurd (List.mem_cons_self ha ta) hca
    | cons hb tb =>
      simp only [List.cons_append, List.cons.injEq] at h
      obtain ⟨rfl, h2⟩ := h
      have hca' : c ∉ ta := fun hm => hca (List.mem_cons_of_mem _ hm)
      have hcb' : c ∉ tb := fun hm => hcb (List.mem_cons_of_mem _ hm)
      obtain ⟨h3, h4⟩ := ih tb x y hca' hcb' h2
      exact ⟨by rw [h3], h4⟩

theorem digit_run_split (p1 : List Char) :
    ∀ p2 s1 s2 : List Char,
    (∀ c ∈ p1, c.isDigit = true) → (∀ c ∈ p2, c.isDigit = true) →
    (∀ c t, s1 = c :: t → c.isDigit = false) →
    (∀ c t, s2 = c :: t → c.isDigit = false) →
    p1 ++ s1 = p2 ++ s2 → p1 = p2 ∧ s1 = s2 := by
  induction p1 with
  | nil =>
    intro p2 s1 s2 _ hp2 hs1 _ h
    cases p2 with
    | nil =>
      simpa using h
    | cons c2 t2 =>
      simp only [List.nil_append, List.cons_append] at h
      have hd := hs1 c2 (t2 ++ s2) h
      have := hp2 c2 (List.mem_cons_self c2 t2)
      rw [this] at hd
      exact absurd hd (by simp)
  | cons c1 t1 ih =>
    intro p2 s1 s2 hp1 hp2 hs1 hs2 h
    cases p2 with
    | nil =>
      simp only [List.cons_append, List.nil_append] at h
      have hd := hs2 c1 (t1 ++ s1) h.symm
      have := hp1 c1 (List.mem_cons_self c1 t1)
      rw [this] at hd
      exact absurd hd (by simp)
    | cons c2 t2 =>
      simp only [List.cons_append, List.cons.injEq] at h
      obtain ⟨rfl, h2⟩ := h
      have hp1' : ∀ c ∈ t1, c.isDigit = true :=
        fun c hm => hp1 c (List.mem_cons_of_mem _ hm)
      have hp2' : ∀ c ∈ t2, c.isDigit = true :=
        fun c hm => hp2 c (List.mem_cons_of_mem _ hm)
      obtain ⟨h3, h4⟩ := ih t2 s1 s2 hp1' hp2' hs1 hs2 h2
      exact ⟨by rw [h3], h4⟩

theorem goodName_ne_nil {nm : List Char} (h : goodName nm) : nm ≠ [] := by
  cases nm
  · exact absurd h (by simp [goodName])
  · simp

theorem goodName_not_underscore {nm : List Char} (h : goodName nm) :
    '_' ∉ nm := by
  cases nm with
  | nil => simp
  | cons c t => exact h.2

theorem goodName_head_not_digit {nm : List Char} (h : goodName nm) :
    ∀ c t, nm = c :: t → c.isDigit = false := by
  cases nm with
  | nil => intro c t hct; exact absurd hct (by simp)
  | cons c0 t0 =>
    intro c t hct
    obtain ⟨rfl, -⟩ : c0 = c ∧ t0 = t := by
      constructor <;> injection hct <;> assumption
    exact h.1

theorem fieldsEnc_head_not_digit {V : Type} (render : V → List Char)
    (o : List (List Char × V)) (ho : ∀ p ∈ o, goodName p.1) :
    ∀ c t, fieldsEnc render o = c :: t → c.isDigit = false := by
  cases o with
  | nil => intro c t hct; exact absurd hct (by simp [fieldsEnc])
  | cons p rest =>
    intro c t hct
    have hg := ho p (List.mem_cons_self p rest)
    cases hnm : p.1 with
    | nil => exact absurd hnm (goodName_ne_nil hg)
    | cons c0 t0 =>
      have : fieldsEnc render (p :: rest)
          = c0 :: (t0 ++ ['_'] ++ render p.2 ++ fieldsEnc render rest) := by
        simp [fieldsEnc, hnm]
      rw [this] at hct
      obtain ⟨rfl, -⟩ : c0 = c ∧ _ = t := by
        constructor <;> injection hct <;> assumption
      exact goodName_head_not_digit hg c0 t0 hnm

theorem fieldsEnc_inj {V : Type} (render : V → List Char)
    (hinj : Function.Injective render)
    (hne : ∀ v, render v ≠ [])
    (hdig : ∀ v, ∀ c ∈ render v, c.isDigit = true)
    (o1 : List (List Char × V)) :
    ∀ o2, (∀ p ∈ o1, goodName p.1) → (∀ p ∈ o2, goodName p.1) →
    fieldsEnc render o1 = fieldsEnc render o2 → o1 = o2 := by
  induction o1 with
  | nil =>
    intro o2 _ ho2 h
    cases o2 with
    | nil => rfl
    | cons q u =>
      exfalso
      have hg := ho2 q (List.mem_cons_self q u)
      cases hnm : q.1 with
      | nil => exact goodName_ne_nil hg hnm
      | cons c0 t0 =>
        have : fieldsEnc render ([] : List (List Char × V)) = [] := rfl
        rw [this] at h
        have h2 : fieldsEnc render (q :: u)
            = c0 :: (t0 ++ ['_'] ++ render q.2 ++ fieldsEnc render u) := by
          simp [fieldsEnc, hnm]
        rw [h2] at h
        exact absurd h.symm (by simp)
  | cons p t ih =>
    intro o2 ho1 ho2 h
    cases o2 with
    | nil =>
      exfalso
      have hg := ho1 p (List.mem_cons_self p t)
      cases hnm : p.1 with
      | nil => exact goodName_ne_nil hg hnm
      | cons c0 t0 =>
        have h2 : fieldsEnc render (p :: t)
            = c0 :: (t0 ++ ['_'] ++ render p.2 ++ fieldsEnc render t) := by
          simp [fieldsEnc, hnm]
        rw [h2] at h
        exact absurd h (by simp [fieldsEnc])
    | cons q u =>
      have hgp := ho1 p (List.mem_cons_self p t)
      have hgq := ho2 q (List.mem_cons_self q u)
      have h1 : fieldsEnc render (p :: t)
          = p.1 ++ '_' :: (render p.2 ++ fieldsEnc render t) := by
        simp [fieldsEnc]
      have h2 : fieldsEnc render (q :: u)
          = q.1 ++ '_' :: (render q.2 ++ fieldsEnc render u) := by
        simp [fieldsEnc]
      rw [h1, h2] at h
      obtain ⟨hname, hrest⟩ :=
        list_split_first '_' p.1 q.1 _ _
          (goodName_not_underscore hgp) (goodName_not_underscore hgq) h
      have ho1' : ∀ r ∈ t, goodName r.1 :=
        fun r hm => ho1 r (List.mem_cons_of_mem _ hm)
      have ho2' : ∀ r ∈ u, goodName r.1 :=
        fun r hm => ho2 r (List.mem_cons_of_mem _ hm)
      obtain ⟨hval, htail⟩ :=
        digit_run_split (render p.2) (render q.2) _ _
          (hdig p.2) (hdig q.2)
          (fieldsEnc_head_not_digit render t ho1')
          (fieldsEnc_head_not_digit render u ho2')
          hrest
      have hv : p.2 = q.2 := hinj hval
      have ht : t = u := ih u ho1' ho2' htail
      have hp : p = q := Prod.ext hname hv
      rw [hp, ht]

/-- C8, amended: `genID` is injective over `(ns, min)` when `ns` contains no
`'-'`, every field name is nonempty, underscore-free and does not start with
a digit, and the element rendering is injective and produces nonempty digit
strings (as the source's `toString(false)` does for the nonnegative numeric
shard keys exercised here).  Without these restrictions the claim fails, see
the counterexample. -/
theorem C8_genID_injective_restricted {V : Type} (render : V → List Char)
    (hinj : Function.Injective render)
    (hne : ∀ v, render v ≠ [])
    (hdig : ∀ v, ∀ c ∈ render v, c.isDigit = true)
    (ns1 ns2 : List Char) (hns1 : '-' ∉ ns1) (hns2 : '-' ∉ ns2)
    (o1 o2 : List (List Char × V))
    (ho1 : ∀ p ∈ o1, goodName p.1) (ho2 : ∀ p ∈ o2, goodName p.1)
    (heq : genID render ns1 o1 = genID render ns2 o2) :
    ns1 = ns2 ∧ o1 = o2 := by
  have h' : ns1 ++ '-' :: fieldsEnc render o1
      = ns2 ++ '-' :: fieldsEnc render o2 := by
    simpa [genID] using heq
  obtain ⟨hns, hfe⟩ := list_split_first '-' ns1 ns2 _ _ hns1 hns2 h'
  exact ⟨hns, fieldsEnc_inj render hinj hne hdig o1 o2 ho1 ho2 hfe⟩

section HashTableLemmas

variable {K V : Type} [DecidableEq K] [Inhabited K] [Inhabited V]

theorem nodeAt_set_self (buf : List (HNode K V)) (i : Nat) (x : HNode K V)
    (hi : i < buf.length) : nodeAt (buf.set i x) i = x := by
  simp [nodeAt, List.getD_eq_getElem?_getD, List.getElem?_set_self hi]

theorem nodeAt_set_ne (buf : List (HNode K V)) (i m : Nat) (x : HNode K V)
    (hne : i ≠ m) : nodeAt (buf.set i x) m = nodeAt buf m := by
  simp [nodeAt, List.getD_eq_getElem?_getD, List.getElem?_set_ne hne]

theorem findAux_congr (buf buf2 : List (HNode K V)) (n mc : Nat) (h : Int)
    (k : K) (start : Nat)
    (hsame : ∀ m, (nodeAt buf2 m).hash = (nodeAt buf m).hash ∧
      (nodeAt buf2 m).k = (nodeAt buf m).k) :
    ∀ fuel i chain fnu,
      findAux buf2 n mc h k start i chain fnu fuel
        = findAux buf n mc h k start i chain fnu fuel := by
  intro fuel
  induction fuel with
  | zero => intro i chain fnu; rfl
  | succ f ih =>
    intro i chain fnu
    simp only [findAux]
    rw [(hsame i).1, (hsame i).2]
    split_ifs <;> first | rfl | exact ih _ _ _

theorem findAux_slot_of_some (buf : List (HNode K V)) (n mc : Nat) (h : Int)
    (k : K) (start : Nat) :
    ∀ fuel i chain i0 j,
      findAux buf n mc h k start i chain (some i0) fuel = some (.slot j) →
      j = i0 := by
  intro fuel
  induction fuel with
  | zero => intro i chain i0 j hf; exact absurd hf (by simp [findAux])
  | succ f ih =>
    intro i chain i0 j hf
    simp only [findAux] at hf
    have hfnu' : (if (nodeAt buf i).hash = 0 ∧ (some i0 : Option Nat) = none
        then some i else some i0) = some i0 := by simp
    rw [hfnu'] at hf
    by_cases hhit : (nodeAt buf i).hash = h ∧ (nodeAt buf i).k = k
    · rw [if_pos hhit] at hf
      simp at hf
    · rw [if_neg hhit] at hf
      by_cases hw : (i + 1) % n = start
      · rw [if_pos hw] at hf
        simp at hf
      · rw [if_neg hw] at hf
        by_cases hmc : mc ≤ chain + 1
        · rw [if_pos hmc] at hf
          simp at hf
          omega
        · rw [if_neg hmc] at hf
          exact ih _ _ _ _ hf

theorem findAux_res_lt (buf : List (HNode K V)) (n mc : Nat) (h : Int)
    (k : K) (start : Nat) (hn : 0 < n) :
    ∀ fuel i chain fnu j, i < n → (∀ i0, fnu = some i0 → i0 < n) →
      (findAux buf n mc h k start i chain fnu fuel = some (.found j) ∨
       findAux buf n mc h k start i chain fnu fuel = some (.slot j)) →
      j < n := by
  intro fuel
  induction fuel with
  | zero =>
    intro i chain fnu j _ _ hf
    rcases hf with hf | hf <;> exact absurd hf (by simp [findAux])
  | succ f ih =>
    intro i chain fnu j hi hfnu hf
    have hfnu2 : ∀ i0,
        (if (nodeAt buf i).hash = 0 ∧ fnu = none then some i else fnu)
          = some i0 → i0 < n := by
      intro i0 h0
      split_ifs at h0
      · simp at h0
        omega
      · exact hfnu i0 h0
    simp only [findAux] at hf
    by_cases hhit : (nodeAt buf i).hash = h ∧ (nodeAt buf i).k = k
    · rw [if_pos hhit] at hf
      rcases hf with hf | hf <;> simp at hf
      omega
    · rw [if_neg hhit] at hf
      by_cases hw : (i + 1) % n = start
      · rw [if_pos hw] at hf
        rcases hf with hf | hf <;> simp at hf
      · rw [if_neg hw] at hf
        by_cases hmc : mc ≤ chain + 1
        · rw [if_pos hmc] at hf
          rcases h0 : (if (nodeAt buf i).hash = 0 ∧ fnu = none
              then some i else fnu) with _ | j0 <;>
            rw [h0] at hf <;> rcases hf with hf | hf <;> simp at hf
          subst hf
          exact hfnu2 _ h0
        · rw [if_neg hmc] at hf
          exact ih _ _ _ _ (Nat.mod_lt _ hn) hfnu2 hf

theorem findAux_no_hit (buf : List (HNode K V)) (n mc : Nat) (h : Int)
    (k : K) (start : Nat)
    (hmiss : ∀ m, ¬((nodeAt buf m).hash = h ∧ (nodeAt buf m).k = k)) :
    ∀ fuel i chain fnu j,
      findAux buf n mc h k start i chain fnu fuel ≠ some (.found j) := by
  intro fuel
  induction fuel with
  | zero => intro i chain fnu j; simp [findAux]
  | succ f ih =>
    intro i chain fnu j
    simp only [findAux]
    rw [if_neg (hmiss i)]
    by_cases hw : (i + 1) % n = start
    · rw [if_pos hw]
      simp
    · rw [if_neg hw]
      by_cases hmc : mc ≤ chain + 1
      · rw [if_pos hmc]
        rcases h0 : (if (nodeAt buf i).hash = 0 ∧ fnu = none
            then some i else fnu) with _ | j0 <;> simp
      · rw [if_neg hmc]
        exact ih _ _ _ _

theorem findAux_found_hit (buf : List (HNode K V)) (n mc : Nat) (h : Int)
    (k : K) (start : Nat) :
    ∀ fuel i chain fnu j,
      findAux buf n mc h k start i chain fnu fuel = some (.found j) →
      (nodeAt buf j).hash = h ∧ (nodeAt buf j).k = k := by
  intro fuel
  induction fuel with
  | zero => intro i chain fnu j hf; exact absurd hf (by simp [findAux])
  | succ f ih =>
    intro i chain fnu j hf
    simp only [findAux] at hf
    by_cases hhit : (nodeAt buf i).hash = h ∧ (nodeAt buf i).k = k
    · rw [if_pos hhit] at hf
      simp at hf
      subst hf
      exact hhit
    · rw [if_neg hhit] at hf
      by_cases hw : (i + 1) % n = start
      · rw [if_pos hw] at hf
        simp at hf
      · rw [if_neg hw] at hf
        by_cases hmc : mc ≤ chain + 1
        · rw [if_pos hmc] at hf
          rcases h0 : (if (nodeAt buf i).hash = 0 ∧ fnu = none
              then some i else fnu) with _ | j0 <;> rw [h0] at hf <;>
            simp at hf
        · rw [if_neg hmc] at hf
          exact ih _ _ _ _ hf

theorem findAux_mono (buf : List (HNode K V)) (n mc : Nat) (h : Int)
    (k : K) (start : Nat) :
    ∀ fuel fuel', fuel ≤ fuel' → ∀ i chain fnu r,
      findAux buf n mc h k start i chain fnu fuel = some r →
      findAux buf n mc h k start i chain fnu fuel' = some r := by
  intro fuel
  induction fuel with
  | zero => intro fuel' _ i chain fnu r hf; exact absurd hf (by simp [findAux])
  | succ f ih =>
    intro fuel' hle i chain fnu r hf
    cases fuel' with
    | zero => omega
    | succ f' =>
      simp only [findAux] at hf ⊢
      by_cases hhit : (nodeAt buf i).hash = h ∧ (nodeAt buf i).k = k
      · rw [if_pos hhit] at hf ⊢
        exact hf
      · rw [if_neg hhit] at hf ⊢
        by_cases hw : (i + 1) % n = start
        · rw [if_pos hw] at hf ⊢
          exact hf
        · rw [if_neg hw] at hf ⊢
          by_cases hmc : mc ≤ chain + 1
          · rw [if_pos hmc] at hf ⊢
            exact hf
          · rw [if_neg hmc] at hf ⊢
            exact ih f' (by omega) _ _ _ _ hf

theorem findAux_isSome (buf : List (HNode K V)) (n mc : Nat) (h : Int)
    (k : K) (start : Nat) :
    ∀ fuel i chain fnu, mc ≤ chain + fuel → 0 < fuel →
      (findAux buf n mc h k start i chain fnu fuel).isSome := by
  intro fuel
  induction fuel with
  | zero => intro i chain fnu _ hpos; exact absurd hpos (by simp)
  | succ f ih =>
    intro i chain fnu hmc _
    simp only [findAux]
    by_cases hhit : (nodeAt buf i).hash = h ∧ (nodeAt buf i).k = k
    · rw [if_pos hhit]
      simp
    · rw [if_neg hhit]
      by_cases hw : (i + 1) % n = start
      · rw [if_pos hw]
        simp
      · rw [if_neg hw]
        by_cases hmc2 : mc ≤ chain + 1
        · rw [if_pos hmc2]
          rcases h0 : (if (nodeAt buf i).hash = 0 ∧ fnu = none
              then some i else fnu) with _ | j0 <;> simp
        · rw [if_neg hmc2]
          exact ih _ _ _ (by omega) (by omega)

theorem findAux_slot_found (buf : List (HNode K V)) (n mc : Nat) (h : Int)
    (k : K) (start : Nat) (v : V) (hn : n = buf.length) (hpos : 0 < n) :
    ∀ fuel i chain j, i < n →
      findAux buf n mc h k start i chain none fuel = some (.slot j) →
      findAux (buf.set j ⟨h, k, v⟩) n mc h k start i chain none fuel
        = some (.found j) := by
  intro fuel
  induction fuel with
  | zero => intro i chain j _ hf; exact absurd hf (by simp [findAux])
  | succ f ih =>
    intro i chain j hi hf
    by_cases hij : i = j
    · subst hij
      have hset := nodeAt_set_self buf i (⟨h, k, v⟩ : HNode K V) (by omega)
      simp [findAux, hset]
    · have hnd : nodeAt (buf.set j (⟨h, k, v⟩ : HNode K V)) i = nodeAt buf i :=
        nodeAt_set_ne buf j i _ (fun hh => hij hh.symm)
      simp only [findAux] at hf
      by_cases hhit : (nodeAt buf i).hash = h ∧ (nodeAt buf i).k = k
      · rw [if_pos hhit] at hf
        simp at hf
      · rw [if_neg hhit] at hf
        by_cases hw : (i + 1) % n = start
        · rw [if_pos hw] at hf
          simp at hf
        · rw [if_neg hw] at hf
          by_cases hu : ((nodeAt buf i).hash = 0 ∧ True)
          · rw [if_pos hu] at hf
            by_cases hmc : mc ≤ chain + 1
            · rw [if_pos hmc] at hf
              simp at hf
              exact absurd hf.symm (fun hh => hij hh.symm)
            · rw [if_neg hmc] at hf
              exact absurd (findAux_slot_of_some buf n mc h k start
                f _ _ _ _ hf) (fun hh => hij hh.symm)
          · rw [if_neg hu] at hf
            by_cases hmc : mc ≤ chain + 1
            · rw [if_pos hmc] at hf
              simp at hf
            · rw [if_neg hmc] at hf
              simp only [findAux, hnd]
              rw [if_neg hhit, if_neg hw, if_neg hu, if_neg hmc]
              exact ih _ _ _ (Nat.mod_lt _ hpos) hf

theorem startIdx_lt (h : Int) (n : Nat) (hn : 0 < n) :
    (h % (n : Int)).toNat < n := by
  have h1 : 0 ≤ h % (n : Int) := Int.emod_nonneg h (by exact_mod_cast hn.ne')
  have h2 : h % (n : Int) < (n : Int) :=
    Int.emod_lt_of_pos h (by exact_mod_cast hn)
  omega

end HashTableLemmas

/-- C7: for the fixed hash table, `get(k)` immediately after a successful
`put(k,v)` returns `v`; `get(k)` after `kill(k)` is absent (under the
documented key contract `hash() != 0` and a duplicate-free table); repeating
`put(k,v)` is idempotent — it overwrites in place and leaves the table's
contents unchanged; and the lookup is settled within
`max_chain = ⌊0.05·n⌋` probes (one probe when `max_chain = 0`): running the
probe loop with fuel `max 1 max_chain` already yields `_find`'s answer. -/
theorem C7_hashtable_algebra {K V : Type} [DecidableEq K] [Inhabited K]
    [Inhabited V] (hashF : K → Int) (killKey : K → K)
    (buf : List (HNode K V)) (k : K) (v : V) :
    (∀ buf2, tblPut hashF buf k v = (true, buf2) →
        tblGet hashF buf2 k = some v)
    ∧ (hashF k ≠ 0 →
        (∀ i, i < buf.length → ∀ j, j < buf.length →
          (nodeAt buf i).hash = hashF k → (nodeAt buf i).k = k →
          (nodeAt buf j).hash = hashF k → (nodeAt buf j).k = k → i = j) →
        tblGet hashF (tblKill killKey hashF buf k) k = none)
    ∧ (∀ buf2, tblPut hashF buf k v = (true, buf2) →
        tblPut hashF buf2 k v = (true, buf2))
    ∧ (0 < buf.length →
        tblFind hashF buf k
          = findAux buf buf.length (buf.length / 20) (hashF k) k
              ((hashF k % (buf.length : Int)).toNat)
              ((hashF k % (buf.length : Int)).toNat) 0 none
              (max 1 (buf.length / 20))) := by
  by_cases hlen0 : buf.length = 0
  · have hfind : tblFind hashF buf k = none := by
      simp only [tblFind, hlen0, findAux]
    refine ⟨?_, ?_, ?_, ?_⟩
    · intro buf2 hput
      simp [tblPut, hfind] at hput
    · intro _ _
      have hkill : tblKill killKey hashF buf k = buf := by
        simp [tblKill, hfind]
      rw [hkill]
      simp [tblGet, hfind]
    · intro buf2 hput
      simp [tblPut, hfind] at hput
    · intro hpos
      omega
  · have hpos : 0 < buf.length := Nat.pos_of_ne_zero hlen0
    have hstart := startIdx_lt (hashF k) buf.length hpos
    refine ⟨?_, ?_, ?_, ?_⟩
    · -- get after put
      intro buf2 hput
      rcases hfind : tblFind hashF buf k with _ | r
      · rw [tblPut] at hput
        rw [hfind] at hput
        exact absurd hput (by simp)
      have hfind' := hfind
      simp only [tblFind] at hfind'
      cases r with
      | full =>
        rw [tblPut] at hput
        rw [hfind] at hput
        exact absurd hput (by simp)
      | found i =>
        rw [tblPut] at hput
        rw [hfind] at hput
        have hbuf2 : buf2 = buf.set i { nodeAt buf i with value := v } := by
          have := hput
          simp at this
          exact this.symm
        have hi : i < buf.length :=
          findAux_res_lt buf buf.length (buf.length / 20) (hashF k) k
            _ hpos _ _ _ _ _ hstart (by simp) (Or.inl hfind')
        have hlen2 : buf2.length = buf.length := by
          rw [hbuf2]
          simp
        have hsame : ∀ m, (nodeAt buf2 m).hash = (nodeAt buf m).hash ∧
            (nodeAt buf2 m).k = (nodeAt buf m).k := by
          intro m
          by_cases hmi : m = i
          · subst hmi
            rw [hbuf2, nodeAt_set_self buf m _ (by omega)]
            exact ⟨rfl, rfl⟩
          · rw [hbuf2, nodeAt_set_ne buf i m _ (fun hh => hmi hh.symm)]
            exact ⟨rfl, rfl⟩
        have hfind2 : tblFind hashF buf2 k = some (.found i) := by
          simp only [tblFind, hlen2]
          rw [findAux_congr buf buf2 _ _ _ _ _ hsame]
          exact hfind'
        simp only [tblGet, hfind2]
        rw [hbuf2, nodeAt_set_self buf i _ hi]
      | slot i =>
        rw [tblPut] at hput
        rw [hfind] at hput
        have hbuf2 : buf2 = buf.set i ⟨hashF k, k, v⟩ := by
          have := hput
          simp at this
          exact this.symm
        have hi : i < buf.length :=
          findAux_res_lt buf buf.length (buf.length / 20) (hashF k) k
            _ hpos _ _ _ _ _ hstart (by simp) (Or.inr hfind')
        have hlen2 : buf2.length = buf.length := by
          rw [hbuf2]
          simp
        have hfind2 : tblFind hashF buf2 k = some (.found i) := by
          simp only [tblFind, hlen2]
          rw [hbuf2]
          exact findAux_slot_found buf buf.length (buf.length / 20)
            (hashF k) k _ v rfl hpos _ _ _ _ hstart hfind'
        simp only [tblGet, hfind2]
        rw [hbuf2, nodeAt_set_self buf i _ hi]
    · -- get after kill
      intro hh huniq
      rcases hfind : tblFind hashF buf k with _ | r
      · have hkill : tblKill killKey hashF buf k = buf := by
          simp [tblKill, hfind]
        rw [hkill]
        simp [tblGet, hfind]
      have hfind' := hfind
      simp only [tblFind] at hfind'
      cases r with
      | slot i =>
        have hkill : tblKill killKey hashF buf k = buf := by
          simp [tblKill, hfind]
        rw [hkill]
        simp [tblGet, hfind]
      | full =>
        have hkill : tblKill killKey hashF buf k = buf := by
          simp [tblKill, hfind]
        rw [hkill]
        simp [tblGet, hfind]
      | found i =>
        have hi : i < buf.length :=
          findAux_res_lt buf buf.length (buf.length / 20) (hashF k) k
            _ hpos _ _ _ _ _ hstart (by simp) (Or.inl hfind')
        have hhit := findAux_found_hit buf buf.length (buf.length / 20)
          (hashF k) k _ _ _ _ _ _ hfind'
        have hkill : tblKill killKey hashF buf k
            = buf.set i { nodeAt buf i with
                k := killKey (nodeAt buf i).k, hash := 0 } := by
          simp [tblKill, hfind]
        rw [hkill]
        have hmiss : ∀ m,
            ¬((nodeAt (buf.set i { nodeAt buf i with
                k := killKey (nodeAt buf i).k, hash := 0 }) m).hash = hashF k ∧
              (nodeAt (buf.set i { nodeAt buf i with
                k := killKey (nodeAt buf i).k, hash := 0 }) m).k = k) := by
          intro m hm
          by_cases hmi : m = i
          · subst hmi
            rw [nodeAt_set_self buf m _ hi] at hm
            exact hh hm.1.symm
          · rw [nodeAt_set_ne buf i m _ (fun hh2 => hmi hh2.symm)] at hm
            by_cases hmlen : m < buf.length
            · exact hmi (huniq m hmlen i hi hm.1 hm.2 hhit.1 hhit.2)
            · have hdef : nodeAt buf m = default := by
                simp [nodeAt, List.getD_eq_getElem?_getD,
                  List.getElem?_eq_none (Nat.le_of_not_lt hmlen)]
              rw [hdef] at hm
              exact hh hm.1.symm
        rcases hf2 : tblFind hashF
            (buf.set i { nodeAt buf i with
              k := killKey (nodeAt buf i).k, hash := 0 }) k with _ | r2
        · simp [tblGet, hf2]
        cases r2 with
        | slot m => simp [tblGet, hf2]
        | full => simp [tblGet, hf2]
        | found m =>
          exfalso
          have hf2' := hf2
          simp only [tblFind] at hf2'
          exact findAux_no_hit _ _ _ _ _ _ hmiss _ _ _ _ _ hf2'
    · -- put is idempotent
      intro buf2 hput
      rcases hfind : tblFind hashF buf k with _ | r
      · rw [tblPut] at hput
        rw [hfind] at hput
        exact absurd hput (by simp)
      have hfind' := hfind
      simp only [tblFind] at hfind'
      cases r with
      | full =>
        rw [tblPut] at hput
        rw [hfind] at hput
        exact absurd hput (by simp)
      | found i =>
        rw [tblPut] at hput
        rw [hfind] at hput
        have hbuf2 : buf2 = buf.set i { nodeAt buf i with value := v } := by
          have := hput
          simp at this
          exact this.symm
        have hi : i < buf.length :=
          findAux_res_lt buf buf.length (buf.length / 20) (hashF k) k
            _ hpos _ _ _ _ _ hstart (by simp) (Or.inl hfind')
        have hlen2 : buf2.length = buf.length := by
          rw [hbuf2]
          simp
        have hsame : ∀ m, (nodeAt buf2 m).hash = (nodeAt buf m).hash ∧
            (nodeAt buf2 m).k = (nodeAt buf m).k := by
          intro m
          by_cases hmi : m = i
          · subst hmi
            rw [hbuf2, nodeAt_set_self buf m _ (by omega)]
            exact ⟨rfl, rfl⟩
          · rw [hbuf2, nodeAt_set_ne buf i m _ (fun hh => hmi hh.symm)]
            exact ⟨rfl, rfl⟩
        have hfind2 : tblFind hashF buf2 k = some (.found i) := by
          simp only [tblFind, hlen2]
          rw [findAux_congr buf buf2 _ _ _ _ _ hsame]
          exact hfind'
        simp only [tblPut, hfind2]
        rw [hbuf2, nodeAt_set_self buf i _ hi, List.set_set]
      | slot i =>
        rw [tblPut] at hput
        rw [hfind] at hput
        have hbuf2 : buf2 = buf.set i ⟨hashF k, k, v⟩ := by
          have := hput
          simp at this
          exact this.symm
        have hi : i < buf.length :=
          findAux_res_lt buf buf.length (buf.length / 20) (hashF k) k
            _ hpos _ _ _ _ _ hstart (by simp) (Or.inr hfind')
        have hlen2 : buf2.length = buf.length := by
          rw [hbuf2]
          simp
        have hfind2 : tblFind hashF buf2 k = some (.found i) := by
          simp only [tblFind, hlen2]
          rw [hbuf2]
          exact findAux_slot_found buf buf.length (buf.length / 20)
            (hashF k) k _ v rfl hpos _ _ _ _ hstart hfind'
        simp only [tblPut, hfind2]
        rw [hbuf2, nodeAt_set_self buf i _ hi, List.set_set]
    · -- probe bound
      intro _
      simp only [tblFind]
      have h1 := findAux_isSome buf buf.length (buf.length / 20) (hashF k) k
        ((hashF k % (buf.length : Int)).toNat)
        (max 1 (buf.length / 20))
        ((hashF k % (buf.length : Int)).toNat) 0 none
        (by simpa using Nat.le_max_right 1 (buf.length / 20))
        (Nat.lt_of_lt_of_le Nat.one_pos (Nat.le_max_left 1 _))
      obtain ⟨r, hr⟩ := Option.isSome_iff_exists.mp h1
      rw [hr]
      exact findAux_mono buf buf.length (buf.length / 20) (hashF k) k
        _ (max 1 (buf.length / 20)) buf.length
        (Nat.max_le.mpr ⟨hpos, Nat.div_le_self _ _⟩) _ _ _ _ hr

theorem C7_hashtable_algebra_witness :
    tblGet (fun x : Nat => (x : Int) + 1)
        ((List.replicate 3 (⟨0, 0, 0⟩ : HNode Nat Nat)).set 2 ⟨2, 1, 7⟩) 1
      = some 7
    ∧ tblGet (fun x : Nat => (x : Int) + 1)
        (tblKill (fun _ => 0) (fun x : Nat => (x : Int) + 1)
          ((List.replicate 3 (⟨0, 0, 0⟩ : HNode Nat Nat)).set 2 ⟨2, 1, 7⟩) 1) 1
      = none
    ∧ tblPut (fun x : Nat => (x : Int) + 1)
        ((List.replicate 3 (⟨0, 0, 0⟩ : HNode Nat Nat)).set 2 ⟨2, 1, 7⟩) 1 7
      = (true,
         (List.replicate 3 (⟨0, 0, 0⟩ : HNode Nat Nat)).set 2 ⟨2, 1, 7⟩) := by
  refine ⟨?_, ?_, ?_⟩
  · exact (C7_hashtable_algebra (fun x : Nat => (x : Int) + 1) (fun _ => 0)
      (List.replicate 3 (⟨0, 0, 0⟩ : HNode Nat Nat)) 1 7).1
      ((List.replicate 3 (⟨0, 0, 0⟩ : HNode Nat Nat)).set 2 ⟨2, 1, 7⟩)
      (by decide)
  · refine (C7_hashtable_algebra (fun x : Nat => (x : Int) + 1) (fun _ => 0)
      ((List.replicate 3 (⟨0, 0, 0⟩ : HNode Nat Nat)).set 2 ⟨2, 1, 7⟩) 1 7).2.1
      (by decide) ?_
    have hlen3 : ((List.replicate 3 (⟨0, 0, 0⟩ : HNode Nat Nat)).set 2
        ⟨2, 1, 7⟩).length = 3 := rfl
    rw [hlen3]
    intro i hi j hj h1 h2 h3 h4
    interval_cases i <;> interval_cases j <;> revert h1 h2 h3 h4 <;> decide
  · exact (C7_hashtable_algebra (fun x : Nat => (x : Int) + 1) (fun _ => 0)
      (List.replicate 3 (⟨0, 0, 0⟩ : HNode Nat Nat)) 1 7).2.2.1
      ((List.replicate 3 (⟨0, 0, 0⟩ : HNode Nat Nat)).set 2 ⟨2, 1, 7⟩)
      (by decide)

section CoalesceKit

variable {K : Type} [LinearOrder K]

theorem covers_le : ∀ {lo : K} {l : List (ChunkEnt K)} {hi : K},
    covers lo l hi → lo ≤ hi
  | _, [], _, h => le_of_eq h
  | _, _ :: _, _, h =>
    le_trans (le_of_lt h.2.1) (covers_le h.2.2)

theorem covers_mem : ∀ {lo : K} {l : List (ChunkEnt K)} {hi : K},
    covers lo l hi → ∀ c ∈ l, lo ≤ c.cmin ∧ c.cmin < c.cmax ∧ c.cmax ≤ hi := by
  intro lo l
  induction l generalizing lo with
  | nil => intro hi _ c hc; exact absurd hc (by simp)
  | cons a rest ih =>
    intro hi h c hc
    obtain ⟨ha, hlt, hrest⟩ := h
    rcases List.mem_cons.mp hc with rfl | hc2
    · exact ⟨le_of_eq ha.symm, ha ▸ hlt, covers_le hrest⟩
    · obtain ⟨h1, h2, h3⟩ := ih hrest c hc2
      exact ⟨le_trans (le_of_lt (ha ▸ hlt)) h1, h2, h3⟩

theorem covers_append {lo m hi : K} {X Y : List (ChunkEnt K)}
    (hX : covers lo X m) (hY : covers m Y hi) : covers lo (X ++ Y) hi := by
  induction X generalizing lo with
  | nil => rw [show lo = m from hX]; exact hY
  | cons a rest ih =>
    exact ⟨hX.1, hX.2.1, ih hX.2.2⟩

theorem go_eq_goF_carry (rmin rmax : K) (sh : Nat) :
    ∀ l : List (ChunkEnt K),
    insertRangeGo rmin rmax sh l
      = goF rmin rmax sh l ++ [goCarry rmin rmax sh l] := by
  intro l
  induction l generalizing rmin rmax sh with
  | nil => rfl
  | cons c rest ih =>
    simp only [insertRangeGo, goF, goCarry]
    by_cases hs : c.shard = sh
    · rw [if_pos hs, if_pos hs, if_pos hs, ih]
    · rw [if_neg hs, if_neg hs, if_neg hs, ih]
      rfl

theorem go_append (rmin rmax : K) (sh : Nat) :
    ∀ (l Z : List (ChunkEnt K)),
    insertRangeGo rmin rmax sh (l ++ Z)
      = goF rmin rmax sh l ++
        insertRangeGo (goCarry rmin rmax sh l).rmin
          (goCarry rmin rmax sh l).rmax (goCarry rmin rmax sh l).shard Z := by
  intro l
  induction l generalizing rmin rmax sh with
  | nil => intro Z; rfl
  | cons c rest ih =>
    intro Z
    simp only [List.cons_append, insertRangeGo, goF, goCarry]
    by_cases hs : c.shard = sh
    · rw [if_pos hs, if_pos hs, if_pos hs]
      exact ih rmin c.cmax sh Z
    · rw [if_neg hs, if_neg hs, if_neg hs]
      simp only [List.cons_append]
      exact congrArg (List.cons _) (ih c.cmin c.cmax c.shard Z)

theorem goCarry_rmax {rmax m : K} {l : List (ChunkEnt K)}
    (h : covers rmax l m) :
    ∀ (rmin : K) (sh : Nat), (goCarry rmin rmax sh l).rmax = m := by
  induction l generalizing rmax with
  | nil => intro rmin sh; exact h
  | cons c rest ih =>
    intro rmin sh
    obtain ⟨hc, hlt, hrest⟩ := h
    simp only [goCarry]
    by_cases hs : c.shard = sh
    · rw [if_pos hs]
      exact ih hrest rmin sh
    · rw [if_neg hs]
      exact ih hrest c.cmin c.shard

theorem go_head_tail (rmin rmax : K) (sh : Nat) :
    ∀ l : List (ChunkEnt K),
    insertRangeGo rmin rmax sh l
      = ⟨rmin, goHeadEnd rmax sh l, sh⟩ :: goTail sh l := by
  intro l
  induction l generalizing rmax with
  | nil => rfl
  | cons c rest ih =>
    simp only [insertRangeGo, goHeadEnd, goTail]
    by_cases hs : c.shard = sh
    · rw [if_pos hs, if_pos hs, if_pos hs, ih]
    · rw [if_neg hs, if_neg hs, if_neg hs]

theorem goHeadEnd_bounds {rmax hi : K} {l : List (ChunkEnt K)}
    (h : covers rmax l hi) (sh : Nat) :
    rmax ≤ goHeadEnd rmax sh l ∧ goHeadEnd rmax sh l ≤ hi := by
  induction l generalizing rmax with
  | nil => simp [goHeadEnd, le_of_eq h]
  | cons c rest ih =>
    obtain ⟨hc, hlt, hrest⟩ := h
    simp only [goHeadEnd]
    by_cases hs : c.shard = sh
    · rw [if_pos hs]
      obtain ⟨h1, h2⟩ := ih hrest
      exact ⟨le_trans (le_of_lt hlt) h1, h2⟩
    · rw [if_neg hs]
      exact ⟨le_refl _, le_trans (le_of_lt hlt) (covers_le hrest)⟩

theorem go_rcovers {rmin rmax hi : K} {l : List (ChunkEnt K)} {sh : Nat}
    (hlt : rmin < rmax) (h : covers rmax l hi) :
    rcovers rmin (insertRangeGo rmin rmax sh l) hi := by
  induction l generalizing rmin rmax sh with
  | nil => exact ⟨rfl, hlt, h⟩
  | cons c rest ih =>
    obtain ⟨hc, hlt2, hrest⟩ := h
    simp only [insertRangeGo]
    by_cases hs : c.shard = sh
    · rw [if_pos hs]
      exact ih (lt_trans hlt hlt2) hrest
    · rw [if_neg hs]
      refine ⟨rfl, hlt, ?_⟩
      rw [← hc]
      exact ih (show c.cmin < c.cmax by rw [hc]; exact hlt2) hrest

theorem rcovers_le : ∀ {lo : K} {l : List (RangeInfo K)} {hi : K},
    rcovers lo l hi → lo ≤ hi
  | _, [], _, h => le_of_eq h
  | _, _ :: _, _, h =>
    le_trans (le_of_lt h.2.1) (rcovers_le h.2.2)

theorem rcovers_mem : ∀ {lo : K} {l : List (RangeInfo K)} {hi : K},
    rcovers lo l hi → ∀ r ∈ l,
      lo ≤ r.rmin ∧ r.rmin < r.rmax ∧ r.rmax ≤ hi := by
  intro lo l
  induction l generalizing lo with
  | nil => intro hi _ r hr; exact absurd hr (by simp)
  | cons a rest ih =>
    intro hi h r hr
    obtain ⟨ha, hlt, hrest⟩ := h
    rcases List.mem_cons.mp hr with rfl | hr2
    · exact ⟨le_of_eq ha.symm, ha ▸ hlt, rcovers_le hrest⟩
    · obtain ⟨h1, h2, h3⟩ := ih hrest r hr2
      exact ⟨le_trans (le_of_lt (ha ▸ hlt)) h1, h2, h3⟩

theorem rcovers_append_split : ∀ {lo hi : K} {X Y : List (RangeInfo K)},
    rcovers lo (X ++ Y) hi → ∃ m, rcovers lo X m ∧ rcovers m Y hi := by
  intro lo hi X
  induction X generalizing lo with
  | nil => intro Y h; exact ⟨lo, rfl, h⟩
  | cons a rest ih =>
    intro Y h
    obtain ⟨ha, hlt, hrest⟩ := h
    obtain ⟨m, h1, h2⟩ := ih hrest
    exact ⟨m, ⟨ha, hlt, h1⟩, h2⟩

theorem go_run {rmax m : K} {l : List (ChunkEnt K)} {sh : Nat}
    (hsh : ∀ c ∈ l, c.shard = sh) (h : covers rmax l m) :
    ∀ (Z : List (ChunkEnt K)) (rmin : K),
    insertRangeGo rmin rmax sh (l ++ Z) = insertRangeGo rmin m sh Z := by
  induction l generalizing rmax with
  | nil => intro Z rmin; rw [show rmax = m from h]; rfl
  | cons c rest ih =>
    intro Z rmin
    obtain ⟨hc, hlt, hrest⟩ := h
    simp only [List.cons_append, insertRangeGo]
    rw [if_pos (hsh c (List.mem_cons_self c rest))]
    exact ih (fun x hx => hsh x (List.mem_cons_of_mem _ hx)) hrest Z rmin

/-- Run decomposition of the open carry: either the whole suffix is one run
extending the seed, or the carry's `rmin` is an interior chunk boundary
splitting the list into a covered prefix and the nonempty final run. -/
theorem goCarry_run_split : ∀ (l : List (ChunkEnt K)) {rmax m : K}
    (rmin : K) (sh : Nat), covers rmax l m →
    ((∀ c ∈ l, c.shard = sh) ∧ goCarry rmin rmax sh l = ⟨rmin, m, sh⟩)
    ∨ (∃ l1 l2, l = l1 ++ l2 ∧ l2 ≠ [] ∧
        covers rmax l1 (goCarry rmin rmax sh l).rmin ∧
        covers (goCarry rmin rmax sh l).rmin l2 m ∧
        (∀ c ∈ l2, c.shard = (goCarry rmin rmax sh l).shard)) := by
  intro l
  induction l with
  | nil =>
    intro rmax m rmin sh h
    exact Or.inl ⟨by simp, by simp [goCarry, show rmax = m from h]⟩
  | cons c rest ih =>
    intro rmax m rmin sh h
    obtain ⟨hc, hlt, hrest⟩ := h
    by_cases hs : c.shard = sh
    · have hgc : goCarry rmin rmax sh (c :: rest)
          = goCarry rmin c.cmax sh rest := by
        simp [goCarry, hs]
      rcases ih rmin sh hrest with ⟨hall, hcar⟩ | ⟨l1, l2, hsplit, hne, h1, h2, h3⟩
      · left
        refine ⟨?_, by rw [hgc, hcar]⟩
        intro x hx
        rcases List.mem_cons.mp hx with rfl | hx2
        · exact hs
        · exact hall x hx2
      · right
        refine ⟨c :: l1, l2, by rw [hsplit]; rfl, hne, ?_, ?_, ?_⟩
        · rw [hgc]
          exact ⟨hc, hlt, h1⟩
        · rw [hgc]
          exact h2
        · rw [hgc]
          exact h3
    · have hgc : goCarry rmin rmax sh (c :: rest)
          = goCarry c.cmin c.cmax c.shard rest := by
        simp [goCarry, hs]
      rcases ih c.cmin c.shard hrest with ⟨hall, hcar⟩ |
          ⟨l1, l2, hsplit, hne, h1, h2, h3⟩
      · right
        refine ⟨[], c :: rest, rfl, by simp, ?_, ?_, ?_⟩
        · rw [hgc, hcar]
          exact hc.symm
        · rw [hgc, hcar]
          refine ⟨rfl, ?_, hrest⟩
          show c.cmin < c.cmax
          rw [hc]
          exact hlt
        · rw [hgc, hcar]
          intro x hx
          rcases List.mem_cons.mp hx with rfl | hx2
          · rfl
          · exact hall x hx2
      · right
        refine ⟨c :: l1, l2, by rw [hsplit]; rfl, hne, ?_, ?_, ?_⟩
        · rw [hgc]
          exact ⟨hc, hlt, h1⟩
        · rw [hgc]
          exact h2
        · rw [hgc]
          exact h3

theorem covers_lt_of_ne_nil {lo hi : K} {l : List (ChunkEnt K)}
    (h : covers lo l hi) (hne : l ≠ []) : lo < hi := by
  cases l with
  | nil => exact absurd rfl hne
  | cons c rest => exact lt_of_lt_of_le h.2.1 (covers_le h.2.2)

theorem goCarry_lt {rmin rmax m : K} {l : List (ChunkEnt K)} {sh : Nat}
    (hlt : rmin < rmax) (h : covers rmax l m) :
    (goCarry rmin rmax sh l).rmin < (goCarry rmin rmax sh l).rmax := by
  induction l generalizing rmin rmax sh with
  | nil => exact hlt
  | cons c rest ih =>
    obtain ⟨hc, hlt2, hrest⟩ := h
    simp only [goCarry]
    by_cases hs : c.shard = sh
    · rw [if_pos hs]
      exact ih (lt_trans hlt hlt2) hrest
    · rw [if_neg hs]
      exact ih (hc ▸ hlt2) hrest

/-- First-run decomposition of a covered chunk list relative to a shard:
`goHeadEnd` is the end of the leading `sh`-run, `goTail` coalesces the
rest. -/
theorem headEnd_run_split : ∀ (B : List (ChunkEnt K)) {rmax hi : K}
    (sh : Nat), covers rmax B hi →
    ∃ B1 B2, B = B1 ++ B2 ∧ (∀ c ∈ B1, c.shard = sh) ∧
      covers rmax B1 (goHeadEnd rmax sh B) ∧
      goTail sh B = insertRangeAll B2 ∧
      covers (goHeadEnd rmax sh B) B2 hi ∧
      (∀ c, B2.head? = some c → c.shard ≠ sh) := by
  intro B
  induction B with
  | nil =>
    intro rmax hi sh h
    exact ⟨[], [], rfl, by simp, rfl, rfl, h, by simp⟩
  | cons c rest ih =>
    intro rmax hi sh h
    obtain ⟨hc, hlt, hrest⟩ := h
    by_cases hs : c.shard = sh
    · obtain ⟨B1, B2, hsplit, hsh, hcov1, htail, hcov2, hhead⟩ :=
        ih sh hrest
      refine ⟨c :: B1, B2, by rw [hsplit]; rfl, ?_, ?_, ?_, ?_, ?_⟩
      · intro x hx
        rcases List.mem_cons.mp hx with rfl | hx2
        · exact hs
        · exact hsh x hx2
      · exact ⟨hc, hlt, by simpa [goHeadEnd, hs] using hcov1⟩
      · simpa [goTail, hs] using htail
      · simpa [goHeadEnd, hs] using hcov2
      · simpa [goHeadEnd, hs] using hhead
    · refine ⟨[], c :: rest, rfl, by simp, ?_, ?_, ?_, ?_⟩
      · simp [goHeadEnd, hs, covers]
      · simp [goTail, hs, insertRangeAll]
      · simpa [goHeadEnd, hs] using ⟨hc, hlt, hrest⟩
      · intro x hx h2
        rw [show x = c from by
          have := hx; simp only [List.head?_cons, Option.some.injEq] at this
          exact this.symm] at h2
        exact hs h2

/-- Last-chunk decomposition of a nonempty covered list: the final chunk
ends exactly at the upper bound. -/
theorem covers_last_split : ∀ {lo hi : K} {l : List (ChunkEnt K)},
    covers lo l hi → l ≠ [] →
    ∃ l' c, l = l' ++ [c] ∧ c.cmax = hi ∧ covers lo l' c.cmin := by
  intro lo hi l
  induction l generalizing lo with
  | nil => intro _ hne; exact absurd rfl hne
  | cons a rest ih =>
    intro h _
    obtain ⟨ha, hlt, hrest⟩ := h
    cases rest with
    | nil =>
      exact ⟨[], a, rfl, hrest, ha.symm⟩
    | cons b rest2 =>
      obtain ⟨l', c, hsplit, hcmax, hcov⟩ := ih hrest (by simp)
      exact ⟨a :: l', c, by rw [hsplit]; rfl, hcmax, ⟨ha, hlt, hcov⟩⟩

/-- Adjacent ranges emitted by `insertRangeGo` always change shard. -/
theorem go_chain (rmin rmax : K) (sh : Nat) :
    ∀ l : List (ChunkEnt K),
    List.Chain' (fun r s : RangeInfo K => r.shard ≠ s.shard)
      (insertRangeGo rmin rmax sh l) := by
  intro l
  induction l generalizing rmin rmax sh with
  | nil => simp [insertRangeGo]
  | cons c rest ih =>
    simp only [insertRangeGo]
    by_cases hs : c.shard = sh
    · rw [if_pos hs]
      exact ih _ _ _
    · rw [if_neg hs]
      rw [go_head_tail]
      refine List.Chain'.cons ?_ ?_
      · simpa using fun hh => hs hh.symm
      · rw [← go_head_tail]
        exact ih _ _ _

theorem rcovers_self_nil {m : K} {l : List (RangeInfo K)}
    (h : rcovers m l m) : l = [] := by
  cases l with
  | nil => rfl
  | cons r rest =>
    exfalso
    obtain ⟨-, hlt, hrest⟩ := h
    exact absurd (lt_of_lt_of_le hlt (rcovers_le hrest)) (lt_irrefl m)

/-- Over a range list covering up to `m ≤ mx`, dropping the ranges with
`rmax < mx` leaves nothing, or exactly the final range, which then ends at
`m = mx`. -/
theorem dropWhile_lt_mx {mx : K} : ∀ {lo m : K} {F : List (RangeInfo K)},
    rcovers lo F m → m ≤ mx →
    F.dropWhile (fun r => decide (r.rmax < mx)) = [] ∨
    ∃ h2, F.dropWhile (fun r => decide (r.rmax < mx)) = [h2] ∧
      h2.rmax = m ∧ m = mx := by
  intro lo m F
  induction F generalizing lo with
  | nil => intro _ _; exact Or.inl rfl
  | cons f F' ih =>
    intro h hle
    obtain ⟨hf, hlt, hrest⟩ := h
    by_cases hfx : f.rmax < mx
    · rw [List.dropWhile_cons, if_pos (by simpa using hfx)]
      exact ih hrest hle
    · rw [List.dropWhile_cons, if_neg (by simpa using hfx)]
      right
      have hfm : f.rmax ≤ m := le_trans (le_refl _) (rcovers_le hrest)
      have hfmx : f.rmax = mx := le_antisymm (le_trans hfm hle)
        (le_of_not_lt hfx)
      have hmm : m = mx := le_antisymm hle (hfmx ▸ hfm)
      have hF' : F' = [] := rcovers_self_nil (by
        rw [show f.rmax = m from hfmx.trans hmm.symm] at hrest
        exact hrest)
      exact ⟨f, by rw [hF'], hfmx.trans hmm.symm, hmm⟩

end CoalesceKit

section C6Dev

variable {K : Type} [LinearOrder K]

theorem dropWhile_append_all {α : Type} {p : α → Bool} {xs ys : List α}
    (h : ∀ a ∈ xs, p a = true) :
    (xs ++ ys).dropWhile p = ys.dropWhile p := by
  induction xs with
  | nil => rfl
  | cons a rest ih =>
    rw [List.cons_append, List.dropWhile_cons, if_pos (h a (by simp))]
    exact ih (fun x hx => h x (by simp [hx]))

theorem takeWhile_append_all {α : Type} {p : α → Bool} {xs ys : List α}
    (h : ∀ a ∈ xs, p a = true) :
    (xs ++ ys).takeWhile p = xs ++ ys.takeWhile p := by
  induction xs with
  | nil => rfl
  | cons a rest ih =>
    rw [List.cons_append, List.takeWhile_cons, if_pos (h a (by simp)),
      ih (fun x hx => h x (by simp [hx]))]
    rfl

theorem mem_takeWhile_pred {α : Type} {p : α → Bool} {l : List α} {a : α}
    (h : a ∈ l.takeWhile p) : p a = true := by
  induction l with
  | nil => simp at h
  | cons x xs ih =>
    rw [List.takeWhile_cons] at h
    by_cases hx : p x
    · rw [if_pos hx] at h
      rcases List.mem_cons.mp h with rfl | h2
      · exact hx
      · exact ih h2
    · rw [if_neg hx] at h
      simp at h

theorem go_ne_nil (rmin rmax : K) (sh : Nat) (l : List (ChunkEnt K)) :
    insertRangeGo rmin rmax sh l ≠ [] := by
  rw [go_head_tail]
  simp

theorem goCarry_append (rmin rmax : K) (sh : Nat) :
    ∀ (l Z : List (ChunkEnt K)),
    goCarry rmin rmax sh (l ++ Z)
      = goCarry (goCarry rmin rmax sh l).rmin (goCarry rmin rmax sh l).rmax
          (goCarry rmin rmax sh l).shard Z := by
  intro l
  induction l generalizing rmin rmax sh with
  | nil => intro Z; rfl
  | cons c rest ih =>
    intro Z
    simp only [List.cons_append, goCarry]
    by_cases hs : c.shard = sh
    · rw [if_pos hs, if_pos hs]
      exact ih rmin c.cmax sh Z
    · rw [if_neg hs, if_neg hs]
      exact ih c.cmin c.cmax c.shard Z

theorem goCarry_of_run {sh : Nat} :
    ∀ (Y : List (ChunkEnt K)) {rmax m : K},
    (∀ c ∈ Y, c.shard = sh) → covers rmax Y m → ∀ rmin : K,
    goCarry rmin rmax sh Y = ⟨rmin, m, sh⟩ := by
  intro Y
  induction Y with
  | nil =>
    intro rmax m _ hY rmin
    simp [goCarry, show rmax = m from hY]
  | cons c rest ih =>
    intro rmax m hsh hY rmin
    obtain ⟨hc, hlt, hrest⟩ := hY
    simp only [goCarry]
    rw [if_pos (hsh c (by simp))]
    exact ih (fun x hx => hsh x (by simp [hx])) hrest rmin

theorem goCarry_shard_last :
    ∀ (l : List (ChunkEnt K)) (c0 : ChunkEnt K), l.getLast? = some c0 →
    ∀ (rmin rmax : K) (sh : Nat), (goCarry rmin rmax sh l).shard = c0.shard := by
  intro l
  induction l with
  | nil => intro c0 h; simp at h
  | cons a rest ih =>
    intro c0 h rmin rmax sh
    cases rest with
    | nil =>
      have ha : a = c0 := by simpa using h
      subst ha
      simp only [goCarry]
      by_cases hs : a.shard = sh
      · rw [if_pos hs]
        exact hs.symm
      · rw [if_neg hs]
    | cons b rest2 =>
      have h2 : (b :: rest2).getLast? = some c0 := by
        rw [← h]
        exact List.getLast?_cons_cons.symm
      simp only [goCarry]
      by_cases hs : a.shard = sh
      · rw [if_pos hs]
        exact ih c0 h2 rmin a.cmax sh
      · rw [if_neg hs]
        exact ih c0 h2 a.cmin a.cmax a.shard

theorem goCarry_rmin_cases :
    ∀ (l : List (ChunkEnt K)) (rmin rmax : K) (sh : Nat),
    (goCarry rmin rmax sh l).rmin = rmin ∨
    ∃ c ∈ l, (goCarry rmin rmax sh l).rmin = c.cmin := by
  intro l
  induction l with
  | nil => intro rmin rmax sh; left; rfl
  | cons c rest ih =>
    intro rmin rmax sh
    simp only [goCarry]
    by_cases hs : c.shard = sh
    · rw [if_pos hs]
      rcases ih rmin c.cmax sh with h | ⟨d, hd, h⟩
      · left; exact h
      · right; exact ⟨d, by simp [hd], h⟩
    · rw [if_neg hs]
      rcases ih c.cmin c.cmax c.shard with h | ⟨d, hd, h⟩
      · right; exact ⟨c, by simp, h⟩
      · right; exact ⟨d, by simp [hd], h⟩

/-- The carry over a list whose tail block `Y` is a single shard run starts
no later than the block boundary `mxx`. -/
theorem goCarry_rmin_le {rmin rmax mxx m : K} {sh s0 : Nat}
    {X Y : List (ChunkEnt K)}
    (hrmin : rmin ≤ mxx) (hX : covers rmax X mxx) (hY : covers mxx Y m)
    (hYsh : ∀ c ∈ Y, c.shard = s0) :
    (goCarry rmin rmax sh (X ++ Y)).rmin ≤ mxx := by
  rw [goCarry_append]
  have hcXrmax : (goCarry rmin rmax sh X).rmax = mxx := goCarry_rmax hX rmin sh
  have hcXrmin : (goCarry rmin rmax sh X).rmin ≤ mxx := by
    rcases goCarry_rmin_cases X rmin rmax sh with h | ⟨c, hc, h⟩
    · rw [h]; exact hrmin
    · rw [h]
      obtain ⟨-, h2, h3⟩ := covers_mem hX c hc
      exact le_trans (le_of_lt h2) h3
  cases Y with
  | nil => exact hcXrmin
  | cons y Y' =>
    obtain ⟨hy, hlt, hrest⟩ := hY
    have hys : y.shard = s0 := hYsh y (by simp)
    have hY'sh : ∀ c ∈ Y', c.shard = s0 := fun x hx => hYsh x (by simp [hx])
    simp only [goCarry]
    by_cases hs : y.shard = (goCarry rmin rmax sh X).shard
    · rw [if_pos hs]
      rw [goCarry_of_run Y' (fun x hx => (hY'sh x hx).trans (hys.symm.trans hs))
        hrest _]
      exact hcXrmin
    · rw [if_neg hs]
      rw [goCarry_of_run Y' (fun x hx => (hY'sh x hx).trans hys.symm) hrest _]
      exact le_of_eq hy

/-- `mergeLowEnd` leaves the result alone when passed a list whose seam at
`mn` is already merged (the `b` range starts the coalesce of the window and
either absorbs `mn` or is separated from its predecessor by a shard
change). -/
theorem mergeLowEnd_keep (FA post : List (RangeInfo K)) {qr mn : K} {qs : Nat}
    {M : List (ChunkEnt K)} {EB : K}
    (hFA : ∀ r ∈ FA, r.rmax ≤ qr)
    (hqr : qr < mn)
    (hlast : ∀ a, FA.getLast? = some a → a.shard ≠ qs)
    (hM : covers mn M EB) (hMne : M ≠ []) :
    mergeLowEnd mn (FA ++ insertRangeGo qr mn qs M ++ post)
      = some (FA ++ insertRangeGo qr mn qs M ++ post) := by
  obtain ⟨m1, M', rfl⟩ : ∃ m1 M', M = m1 :: M' := by
    cases M with
    | nil => exact absurd rfl hMne
    | cons a b => exact ⟨a, b, rfl⟩
  obtain ⟨hm1, hm1lt, hMrest⟩ := hM
  have hFAdrop : ∀ r ∈ FA,
      (fun r : RangeInfo K => decide (r.rmax ≤ mn)) r = true := by
    intro r hr
    simpa using le_trans (hFA r hr) (le_of_lt hqr)
  by_cases hs : m1.shard = qs
  · have hgo : insertRangeGo qr mn qs (m1 :: M')
        = ⟨qr, goHeadEnd m1.cmax qs M', qs⟩ :: goTail qs M' := by
      simp only [insertRangeGo]
      rw [if_pos hs, go_head_tail]
    have hE : mn < goHeadEnd m1.cmax qs M' :=
      lt_of_lt_of_le hm1lt (goHeadEnd_bounds hMrest qs).1
    have hb : ((FA ++ insertRangeGo qr mn qs (m1 :: M') ++ post).dropWhile
        (fun r => decide (r.rmax ≤ mn))).head?
        = some ⟨qr, goHeadEnd m1.cmax qs M', qs⟩ := by
      rw [List.append_assoc, dropWhile_append_all hFAdrop, hgo,
        List.cons_append, List.dropWhile_cons,
        if_neg (by simpa using not_le.mpr hE)]
      rfl
    have htake : ((FA ++ insertRangeGo qr mn qs (m1 :: M') ++ post).takeWhile
        (fun r => decide (r.rmax ≤ mn))) = FA := by
      rw [List.append_assoc, takeWhile_append_all hFAdrop, hgo,
        List.cons_append, List.takeWhile_cons,
        if_neg (by simpa using not_le.mpr hE), List.append_nil]
    simp only [mergeLowEnd, hb, htake]
    cases hgl : FA.getLast? with
    | none => simp
    | some a => simp [hlast a hgl]
  · have hgo : insertRangeGo qr mn qs (m1 :: M')
        = ⟨qr, mn, qs⟩ ::
          (⟨m1.cmin, goHeadEnd m1.cmax m1.shard M', m1.shard⟩ ::
            goTail m1.shard M') := by
      simp only [insertRangeGo]
      rw [if_neg hs, go_head_tail]
    have hE : mn < goHeadEnd m1.cmax m1.shard M' :=
      lt_of_lt_of_le hm1lt (goHeadEnd_bounds hMrest m1.shard).1
    have hb : ((FA ++ insertRangeGo qr mn qs (m1 :: M') ++ post).dropWhile
        (fun r => decide (r.rmax ≤ mn))).head?
        = some ⟨m1.cmin, goHeadEnd m1.cmax m1.shard M', m1.shard⟩ := by
      rw [List.append_assoc, dropWhile_append_all hFAdrop, hgo,
        List.cons_append, List.dropWhile_cons, if_pos (by simp),
        List.cons_append, List.dropWhile_cons,
        if_neg (by simpa using not_le.mpr hE)]
      rfl
    have htake : ((FA ++ insertRangeGo qr mn qs (m1 :: M') ++ post).takeWhile
        (fun r => decide (r.rmax ≤ mn))) = FA ++ [⟨qr, mn, qs⟩] := by
      rw [List.append_assoc, takeWhile_append_all hFAdrop, hgo,
        List.cons_append, List.takeWhile_cons, if_pos (by simp),
        List.cons_append, List.takeWhile_cons,
        if_neg (by simpa using not_le.mpr hE)]
    simp only [mergeLowEnd, hb, htake]
    rw [List.getLast?_concat]
    simp [Ne.symm hs]

/-- `mergeLowEnd` leaves a list alone when its first surviving range starts
past `mn` with nothing retained before it. -/
theorem mergeLowEnd_head (post : List (RangeInfo K)) {mn EB : K}
    {M : List (ChunkEnt K)}
    (hM : covers mn M EB) (hMne : M ≠ []) :
    mergeLowEnd mn (insertRangeAll M ++ post)
      = some (insertRangeAll M ++ post) := by
  obtain ⟨m1, M', rfl⟩ : ∃ m1 M', M = m1 :: M' := by
    cases M with
    | nil => exact absurd rfl hMne
    | cons a b => exact ⟨a, b, rfl⟩
  obtain ⟨hm1, hm1lt, hMrest⟩ := hM
  have hgo : insertRangeAll (m1 :: M')
      = ⟨m1.cmin, goHeadEnd m1.cmax m1.shard M', m1.shard⟩ ::
        goTail m1.shard M' := by
    simp only [insertRangeAll]
    rw [go_head_tail]
  have hE : mn < goHeadEnd m1.cmax m1.shard M' :=
    lt_of_lt_of_le hm1lt (goHeadEnd_bounds hMrest m1.shard).1
  have hb : ((insertRangeAll (m1 :: M') ++ post).dropWhile
      (fun r => decide (r.rmax ≤ mn))).head?
      = some ⟨m1.cmin, goHeadEnd m1.cmax m1.shard M', m1.shard⟩ := by
    rw [hgo, List.cons_append, List.dropWhile_cons,
      if_neg (by simpa using not_le.mpr hE)]
    rfl
  have htake : ((insertRangeAll (m1 :: M') ++ post).takeWhile
      (fun r => decide (r.rmax ≤ mn))) = [] := by
    rw [hgo, List.cons_append, List.takeWhile_cons,
      if_neg (by simpa using not_le.mpr hE)]
  simp only [mergeLowEnd, hb, htake]
  simp

/-- `mergeLowEnd` on a list whose seam at `mn` is split into the carried
range `[qr, mn)` and the coalesce of the window: the low-end merge step
produces exactly the coalesce that absorbs the carry. -/
theorem mergeLowEnd_seam (FA post : List (RangeInfo K)) {qr mn : K} {qs : Nat}
    {M : List (ChunkEnt K)} {EB : K}
    (hFA : ∀ r ∈ FA, r.rmax ≤ qr)
    (hqr : qr < mn)
    (hM : covers mn M EB) (hMne : M ≠ []) :
    mergeLowEnd mn ((FA ++ [⟨qr, mn, qs⟩]) ++ insertRangeAll M ++ post)
      = some (FA ++ insertRangeGo qr mn qs M ++ post) := by
  obtain ⟨m1, M', rfl⟩ : ∃ m1 M', M = m1 :: M' := by
    cases M with
    | nil => exact absurd rfl hMne
    | cons a b => exact ⟨a, b, rfl⟩
  obtain ⟨hm1, hm1lt, hMrest⟩ := hM
  have hFQdrop : ∀ r ∈ FA ++ [(⟨qr, mn, qs⟩ : RangeInfo K)],
      (fun r : RangeInfo K => decide (r.rmax ≤ mn)) r = true := by
    intro r hr
    rcases List.mem_append.mp hr with h1 | h2
    · simpa using le_trans (hFA r h1) (le_of_lt hqr)
    · simp only [List.mem_singleton] at h2
      simp [h2]
  have hgo : insertRangeAll (m1 :: M')
      = ⟨m1.cmin, goHeadEnd m1.cmax m1.shard M', m1.shard⟩ ::
        goTail m1.shard M' := by
    simp only [insertRangeAll]
    rw [go_head_tail]
  have hE : mn < goHeadEnd m1.cmax m1.shard M' :=
    lt_of_lt_of_le hm1lt (goHeadEnd_bounds hMrest m1.shard).1
  have hb : (((FA ++ [(⟨qr, mn, qs⟩ : RangeInfo K)]) ++
      insertRangeAll (m1 :: M') ++
      post).dropWhile (fun r => decide (r.rmax ≤ mn))).head?
      = some ⟨m1.cmin, goHeadEnd m1.cmax m1.shard M', m1.shard⟩ := by
    rw [List.append_assoc, dropWhile_append_all hFQdrop, hgo,
      List.cons_append, List.dropWhile_cons,
      if_neg (by simpa using not_le.mpr hE)]
    rfl
  have hdt : (((FA ++ [(⟨qr, mn, qs⟩ : RangeInfo K)]) ++
      insertRangeAll (m1 :: M') ++
      post).dropWhile (fun r => decide (r.rmax ≤ mn))).tail
      = goTail m1.shard M' ++ post := by
    rw [List.append_assoc, dropWhile_append_all hFQdrop, hgo,
      List.cons_append, List.dropWhile_cons,
      if_neg (by simpa using not_le.mpr hE)]
    rfl
  have htake : (((FA ++ [(⟨qr, mn, qs⟩ : RangeInfo K)]) ++
      insertRangeAll (m1 :: M') ++
      post).takeWhile (fun r => decide (r.rmax ≤ mn)))
      = FA ++ [(⟨qr, mn, qs⟩ : RangeInfo K)] := by
    rw [List.append_assoc, takeWhile_append_all hFQdrop, hgo,
      List.cons_append, List.takeWhile_cons,
      if_neg (by simpa using not_le.mpr hE), List.append_nil]
  simp only [mergeLowEnd, hb, htake, hdt]
  rw [List.getLast?_concat]
  by_cases hsq : qs = m1.shard
  · have hgo2 : insertRangeGo qr mn qs (m1 :: M')
        = ⟨qr, goHeadEnd m1.cmax m1.shard M', m1.shard⟩ ::
          goTail m1.shard M' := by
      simp only [insertRangeGo]
      rw [if_pos hsq.symm, go_head_tail, hsq]
    rw [hgo2]
    simp [hsq, List.dropLast_concat, List.append_assoc]
  · have hgo2 : insertRangeGo qr mn qs (m1 :: M')
        = ⟨qr, mn, qs⟩ :: insertRangeAll (m1 :: M') := by
      simp only [insertRangeGo, insertRangeAll]
      rw [if_neg (fun hh => hsq hh.symm)]
    simp [hsq, hgo2, List.append_assoc]

/-- The high-end merge step on `PRE ++ (F1 ++ [p]) ++ coalesce B2` extends
the final carried range `p` over `B2` exactly as the coalesce of the whole
would: it merges `p` with the first range of `B2`'s coalesce iff they share
a shard, which the hypotheses confine to the `p.rmax = mx` seam. -/
theorem mergeHighEnd_eq (PRE F1 : List (RangeInfo K)) (p : RangeInfo K)
    (B2 : List (ChunkEnt K)) {mx ghi lo2 : K}
    (hPRE : ∀ r ∈ PRE, r.rmax < mx)
    (hrc : rcovers lo2 (F1 ++ [p]) p.rmax)
    (hch : List.Chain' (fun r s : RangeInfo K => r.shard ≠ s.shard)
      (F1 ++ [p]))
    (hEB : mx ≤ p.rmax)
    (hpmin : p.rmin ≤ mx)
    (hB2 : covers p.rmax B2 ghi)
    (hB2sh : ∀ c, B2.head? = some c → mx < p.rmax → c.shard ≠ p.shard) :
    mergeHighEnd mx (PRE ++ (F1 ++ [p]) ++ insertRangeAll B2)
      = some (PRE ++ F1 ++ insertRangeGo p.rmin p.rmax p.shard B2) := by
  obtain ⟨m0, hF1rc0, hprc⟩ := rcovers_append_split hrc
  have hm0 : p.rmin = m0 := hprc.1
  have hplt : p.rmin < p.rmax := by
    rw [hm0]; exact hprc.2.1
  have hF1rc : rcovers lo2 F1 p.rmin := by rw [hm0]; exact hF1rc0
  have hPREdrop : ∀ r ∈ PRE,
      (fun r : RangeInfo K => decide (r.rmax < mx)) r = true := by
    intro r hr
    simpa using hPRE r hr
  have hpeta : (⟨p.rmin, p.rmax, p.shard⟩ : RangeInfo K) = p := rfl
  rcases dropWhile_lt_mx hF1rc hpmin with hD | ⟨h2, hD, h2rmax, hpmx⟩
  · -- every range of F1 ends below mx
    have hF1all : ∀ r ∈ F1,
        (fun r : RangeInfo K => decide (r.rmax < mx)) r = true :=
      List.dropWhile_eq_nil_iff.mp hD
    have hPF : ∀ r ∈ PRE ++ F1,
        (fun r : RangeInfo K => decide (r.rmax < mx)) r = true := by
      intro r hr
      rcases List.mem_append.mp hr with h1 | h1
      · exact hPREdrop r h1
      · exact hF1all r h1
    cases B2 with
    | nil =>
      have hdrop : ((PRE ++ (F1 ++ [p]) ++ insertRangeAll
          ([] : List (ChunkEnt K))).dropWhile
          (fun r => decide (r.rmax < mx))) = [p] := by
        rw [show insertRangeAll ([] : List (ChunkEnt K)) = [] from rfl,
          List.append_nil, ← List.append_assoc, dropWhile_append_all hPF,
          List.dropWhile_cons, if_neg (by simpa using not_lt.mpr hEB)]
      simp only [mergeHighEnd, hdrop]
      rw [show insertRangeGo p.rmin p.rmax p.shard ([] : List (ChunkEnt K))
          = [p] from rfl]
      simp [insertRangeAll, List.append_assoc]
    | cons b1 B2' =>
      have hb1 : b1.cmin = p.rmax := hB2.1
      have hgo : insertRangeAll (b1 :: B2')
          = ⟨b1.cmin, goHeadEnd b1.cmax b1.shard B2', b1.shard⟩ ::
            goTail b1.shard B2' := by
        simp only [insertRangeAll]
        rw [go_head_tail]
      have hdrop : ((PRE ++ (F1 ++ [p]) ++ insertRangeAll
          (b1 :: B2')).dropWhile (fun r => decide (r.rmax < mx)))
          = p :: (⟨b1.cmin, goHeadEnd b1.cmax b1.shard B2', b1.shard⟩ ::
            goTail b1.shard B2') := by
        rw [← List.append_assoc, List.append_assoc (PRE ++ F1),
          dropWhile_append_all hPF, List.cons_append, List.dropWhile_cons,
          if_neg (by simpa using not_lt.mpr hEB), hgo]
        simp
      simp only [mergeHighEnd, hdrop]
      by_cases hsh : p.shard = b1.shard
      · -- merge fires; this forces p.rmax = mx
        have hpmx2 : p.rmax = mx := by
          by_contra hne
          exact hB2sh b1 rfl (lt_of_le_of_ne hEB (fun hh => hne hh.symm))
            hsh.symm
        have htake : ((PRE ++ (F1 ++ [p]) ++ insertRangeAll
            (b1 :: B2')).takeWhile (fun r => decide (r.rmax < mx)))
            = PRE ++ F1 := by
          rw [← List.append_assoc, List.append_assoc (PRE ++ F1),
            takeWhile_append_all hPF, List.cons_append, List.takeWhile_cons,
            if_neg (by simpa using not_lt.mpr hEB), List.append_nil]
        have hgo2 : insertRangeGo p.rmin p.rmax p.shard (b1 :: B2')
            = ⟨p.rmin, goHeadEnd b1.cmax p.shard B2', p.shard⟩ ::
              goTail p.shard B2' := by
          simp only [insertRangeGo]
          rw [if_pos hsh.symm, go_head_tail]
        rw [hgo2, htake]
        simp [hsh, List.append_assoc]
      · have hgo2 : insertRangeGo p.rmin p.rmax p.shard (b1 :: B2')
            = p :: (⟨b1.cmin, goHeadEnd b1.cmax b1.shard B2', b1.shard⟩ ::
              goTail b1.shard B2') := by
          simp only [insertRangeGo]
          rw [if_neg (fun hh => hsh hh.symm), hpeta, go_head_tail]
        rw [hgo2]
        simp [hsh, hgo, List.append_assoc]
  · -- the final range of F1 ends exactly at mx = p.rmin
    have hT : F1 = F1.takeWhile (fun r => decide (r.rmax < mx)) ++ [h2] := by
      conv_lhs => rw [← List.takeWhile_append_dropWhile
        (fun r : RangeInfo K => decide (r.rmax < mx)) F1]
      rw [hD]
    have hTall : ∀ r ∈ PRE ++ F1.takeWhile (fun r => decide (r.rmax < mx)),
        (fun r : RangeInfo K => decide (r.rmax < mx)) r = true := by
      intro r hr
      rcases List.mem_append.mp hr with h1 | h1
      · exact hPREdrop r h1
      · exact @mem_takeWhile_pred (RangeInfo K)
          (fun r => decide (r.rmax < mx)) F1 r h1
    have hmxlt : mx < p.rmax := by
      rcases lt_or_eq_of_le hEB with h | h
      · exact h
      · exfalso
        rw [← h] at hplt
        rw [hpmx] at hplt
        exact lt_irrefl mx hplt
    have hchpair : h2.shard ≠ p.shard := by
      have hinfix : [h2, p] <:+:
          (F1.takeWhile (fun r => decide (r.rmax < mx)) ++ [h2] ++ [p]) :=
        ⟨F1.takeWhile (fun r => decide (r.rmax < mx)), [], by simp⟩
      have hch2 : List.Chain'
          (fun r s : RangeInfo K => r.shard ≠ s.shard) [h2, p] := by
        refine List.Chain'.infix ?_ hinfix
        rw [← hT]
        exact hch
      exact (List.chain'_cons.mp hch2).1
    have hdrop : ((PRE ++ (F1 ++ [p]) ++ insertRangeAll B2).dropWhile
        (fun r => decide (r.rmax < mx)))
        = h2 :: (p :: insertRangeAll B2) := by
      have hassoc : PRE ++ (F1 ++ [p]) ++ insertRangeAll B2
          = (PRE ++ F1.takeWhile (fun r => decide (r.rmax < mx))) ++
            (h2 :: (p :: insertRangeAll B2)) := by
        conv_lhs => rw [hT]
        simp [List.append_assoc]
      rw [hassoc, dropWhile_append_all hTall, List.dropWhile_cons,
        if_neg (by simp [h2rmax, hpmx])]
    simp only [mergeHighEnd, hdrop]
    rw [if_neg (show ¬(h2.shard = p.shard) from hchpair)]
    cases B2 with
    | nil =>
      rw [show insertRangeGo p.rmin p.rmax p.shard ([] : List (ChunkEnt K))
          = [p] from rfl]
      simp [insertRangeAll, List.append_assoc]
    | cons b1 B2' =>
      have hgo2 : insertRangeGo p.rmin p.rmax p.shard (b1 :: B2')
          = p :: insertRangeAll (b1 :: B2') := by
        simp only [insertRangeGo, insertRangeAll]
        rw [if_neg (fun hh => (hB2sh b1 rfl hmxlt) hh), hpeta]
      rw [hgo2]
      simp [List.append_assoc]

theorem chain_concat_last {α : Type} {R : α → α → Prop} {l : List α}
    {q x : α} (hch : List.Chain' R (l ++ [q])) (hx : l.getLast? = some x) :
    R x q := by
  have hne : l ≠ [] := by
    intro h
    rw [h] at hx
    simp at hx
  have hxeq : l.getLast hne = x := by
    rw [List.getLast?_eq_getLast l hne] at hx
    simpa using hx
  have hinfix : [x, q] <:+: (l ++ [q]) := by
    refine ⟨l.dropLast, [], ?_⟩
    rw [List.append_nil, ← List.dropLast_append_getLast hne, hxeq]
    simp [List.append_assoc]
  have hch2 := List.Chain'.infix hch hinfix
  exact (List.chain'_cons.mp hch2).1

end C6Dev

section C6Main

variable {K : Type} [LinearOrder K]

/-- C6: for every valid chunk map (a contiguous cover split as
`A ++ Wold ++ B`) and every mutated window `[mn, mx)` within it replaced by
`Wnew`, the incremental `ChunkRangeManager::reloadRange` on the old range
index leaves the range index equal to the one `ChunkRangeManager::reloadAll`
(= `insertRangeAll`) builds from scratch on the new chunk map: the same
coalesced same-shard ranges with the same boundaries. -/
theorem C6_reloadRange_equiv
    (A Wold Wnew B : List (ChunkEnt K)) (glo mn mx ghi : K)
    (hA : covers glo A mn) (hWo : covers mn Wold mx)
    (hWn : covers mn Wnew mx) (hB : covers mx B ghi)
    (hWo0 : Wold ≠ []) (hWn0 : Wnew ≠ []) :
    reloadRange (insertRangeAll (A ++ Wold ++ B)) (A ++ Wnew ++ B) mn mx
      = some (insertRangeAll (A ++ Wnew ++ B)) := by
  have hmnmx : mn < mx := covers_lt_of_ne_nil hWo hWo0
  obtain ⟨w, Wo', rfl⟩ : ∃ w Wo', Wold = w :: Wo' := by
    cases Wold with
    | nil => exact absurd rfl hWo0
    | cons a b => exact ⟨a, b, rfl⟩
  obtain ⟨v, Wn', rfl⟩ : ∃ v Wn', Wnew = v :: Wn' := by
    cases Wnew with
    | nil => exact absurd rfl hWn0
    | cons a b => exact ⟨a, b, rfl⟩
  obtain ⟨hw, hwlt, hWo'⟩ := hWo
  obtain ⟨hv, hvlt, hWn'⟩ := hWn
  cases A with
  | nil =>
    simp only [List.nil_append, List.cons_append, insertRangeAll]
    -- carry of the old window
    obtain ⟨p, hpdef⟩ : ∃ p, goCarry w.cmin w.cmax w.shard Wo' = p :=
      ⟨_, rfl⟩
    have hwcc : w.cmin < w.cmax := by rw [hw]; exact hwlt
    have hp : p.rmax = mx := by
      rw [← hpdef]; exact goCarry_rmax hWo' w.cmin w.shard
    have hplt : p.rmin < p.rmax := by
      rw [← hpdef]; exact goCarry_lt hwcc hWo'
    have hprmx : p.rmin < mx := hp ▸ hplt
    have hB' : covers p.rmax B ghi := by rw [hp]; exact hB
    -- first-run split of B relative to the old carry shard
    obtain ⟨B1, B2, hBsplit, hB1sh, hB1cov, hBtail, hB2cov, hB2head⟩ :=
      headEnd_run_split B p.shard hB'
    obtain ⟨E, hEdef⟩ : ∃ E, goHeadEnd p.rmax p.shard B = E := ⟨_, rfl⟩
    rw [hEdef] at hB1cov hB2cov
    have hEmx : mx ≤ E := by
      rw [← hEdef, ← hp]
      exact (goHeadEnd_bounds hB' p.shard).1
    -- decomposition of the old coalesce
    have hRsplit : insertRangeGo w.cmin w.cmax w.shard (Wo' ++ B)
        = goF w.cmin w.cmax w.shard Wo' ++
          insertRangeGo p.rmin p.rmax p.shard B := by
      rw [go_append, hpdef]
    have hGBht : insertRangeGo p.rmin p.rmax p.shard B
        = ⟨p.rmin, E, p.shard⟩ :: goTail p.shard B := by
      rw [go_head_tail, hEdef]
    have hRrc : rcovers w.cmin
        (insertRangeGo w.cmin w.cmax w.shard (Wo' ++ B)) ghi :=
      go_rcovers hwcc (covers_append hWo' hB)
    have hFoel : ∀ r ∈ goF w.cmin w.cmax w.shard Wo', r.rmax ≤ p.rmin := by
      rw [hRsplit] at hRrc
      obtain ⟨m1, hFrc, hGrc⟩ := rcovers_append_split hRrc
      rw [hGBht] at hGrc
      have hm1 : p.rmin = m1 := hGrc.1
      intro r hr
      exact (rcovers_mem (hm1 ▸ hFrc) r hr).2.2
    have hFodrop : ∀ r ∈ goF w.cmin w.cmax w.shard Wo',
        (fun r : RangeInfo K => decide (r.rmax < mx)) r = true := by
      intro r hr
      simpa using lt_of_le_of_lt (hFoel r hr) hprmx
    -- the head end of the old coalesce is past mn
    have hE0 : mn < goHeadEnd w.cmax w.shard (Wo' ++ B) :=
      lt_of_lt_of_le hwlt
        (goHeadEnd_bounds (covers_append hWo' hB) w.shard).1
    have hRht : insertRangeGo w.cmin w.cmax w.shard (Wo' ++ B)
        = ⟨w.cmin, goHeadEnd w.cmax w.shard (Wo' ++ B), w.shard⟩ ::
          goTail w.shard (Wo' ++ B) := go_head_tail w.cmin w.cmax w.shard _
    -- the low lookup
    have hlow : ((insertRangeGo w.cmin w.cmax w.shard (Wo' ++ B)).dropWhile
        (fun r => decide (r.rmax ≤ mn))).head?
        = some ⟨w.cmin, goHeadEnd w.cmax w.shard (Wo' ++ B), w.shard⟩ := by
      rw [hRht, List.dropWhile_cons, if_neg (by simpa using not_le.mpr hE0)]
      rfl
    -- the high lookup
    have hhigh : ((insertRangeGo w.cmin w.cmax w.shard (Wo' ++ B)).dropWhile
        (fun r => decide (r.rmax < mx))).head?
        = some ⟨p.rmin, E, p.shard⟩ := by
      rw [hRsplit, dropWhile_append_all hFodrop, hGBht, List.dropWhile_cons,
        if_neg (by simpa using not_lt.mpr hEmx)]
      rfl
    -- the high-side erase tail
    have hpost : ((insertRangeGo w.cmin w.cmax w.shard (Wo' ++ B)).dropWhile
        (fun r => decide (r.rmax < mx))).tail = insertRangeAll B2 := by
      rw [hRsplit, dropWhile_append_all hFodrop, hGBht, List.dropWhile_cons,
        if_neg (by simpa using not_lt.mpr hEmx)]
      simpa using hBtail
    -- the pre part is empty
    have hpre : ((insertRangeGo w.cmin w.cmax w.shard (Wo' ++ B)).takeWhile
        (fun r => decide (r.rmax ≤ mn))) = [] := by
      rw [hRht, List.takeWhile_cons, if_neg (by simpa using not_le.mpr hE0)]
    -- the chunk window
    have hcb : ((v :: (Wn' ++ B)).dropWhile
        (fun c => decide (c.cmax ≤ w.cmin)))
        = v :: (Wn' ++ B) := by
      rw [List.dropWhile_cons,
        if_neg (by simp [hw, not_le_of_lt hvlt])]
    have hB1cov2 : covers mx B1 E := by
      rw [← hp]; exact hB1cov
    have hMcov : covers mn (v :: (Wn' ++ B1)) E :=
      ⟨hv, hvlt, covers_append hWn' hB1cov2⟩
    obtain ⟨M0, ml, hMsp, hml, hM0⟩ :=
      covers_last_split hMcov (by simp)
    have hmllt : ml.cmin < ml.cmax := by
      have hmem : ml ∈ v :: (Wn' ++ B1) := by rw [hMsp]; simp
      exact (covers_mem hMcov ml hmem).2.1
    have hM0drop : ∀ c ∈ M0,
        (fun c : ChunkEnt K => decide (c.cmax < E)) c = true := by
      intro c hc
      have h1 : c.cmax ≤ ml.cmin := (covers_mem hM0 c hc).2.2
      simpa using lt_of_le_of_lt h1 (hml ▸ hmllt)
    have hchunks : v :: (Wn' ++ B) = M0 ++ (ml :: B2) := by
      have h1 : v :: (Wn' ++ B)
          = (v :: (Wn' ++ B1)) ++ B2 := by
        rw [hBsplit]
        simp [List.append_assoc]
      rw [h1, hMsp]
      simp [List.append_assoc]
    have hce : ((v :: (Wn' ++ B)).dropWhile
        (fun c => decide (c.cmax < E))).head? = some ml := by
      rw [hchunks, dropWhile_append_all hM0drop, List.dropWhile_cons,
        if_neg (by simp [hml])]
      rfl
    have hslice : ((v :: (Wn' ++ B)).takeWhile
        (fun c => decide (c.cmax < E))) ++ [ml]
        = v :: (Wn' ++ B1) := by
      rw [hchunks, takeWhile_append_all hM0drop, List.takeWhile_cons,
        if_neg (by simp [hml]), List.append_nil, ← hMsp]
    have hr1ne : insertRangeAll (v :: (Wn' ++ B1)) ++ insertRangeAll B2
        ≠ [] := by
      simp only [insertRangeAll]
      intro hcon
      exact go_ne_nil v.cmin v.cmax v.shard (Wn' ++ B1)
        (List.append_eq_nil.mp hcon).1
    -- assembly
    simp only [reloadRange]
    rw [if_neg (go_ne_nil w.cmin w.cmax w.shard (Wo' ++ B))]
    rw [hlow]
    simp only []
    rw [hhigh]
    simp only []
    rw [hcb]
    rw [if_neg (by simp : ¬(v :: (Wn' ++ B) = []))]
    rw [hce]
    simp only []
    rw [hslice, hpre, hpost]
    simp only [List.nil_append]
    rw [if_neg hr1ne]
    rw [mergeLowEnd_head (insertRangeAll B2) hMcov (by simp)]
    simp only []
    -- the new carry over the replaced window
    obtain ⟨pn, hpndef⟩ : ∃ pn, goCarry v.cmin v.cmax v.shard (Wn' ++ B1)
        = pn := ⟨_, rfl⟩
    have hvcc : v.cmin < v.cmax := by rw [hv]; exact hvlt
    have hWnB1 : covers v.cmax (Wn' ++ B1) E := covers_append hWn' hB1cov2
    have hpnmax : pn.rmax = E := by
      rw [← hpndef]; exact goCarry_rmax hWnB1 v.cmin v.shard
    have hGF : insertRangeAll (v :: (Wn' ++ B1))
        = goF v.cmin v.cmax v.shard (Wn' ++ B1) ++ [pn] := by
      simp only [insertRangeAll]
      rw [go_eq_goF_carry, hpndef]
    have hrcn : rcovers v.cmin
        (goF v.cmin v.cmax v.shard (Wn' ++ B1) ++ [pn]) pn.rmax := by
      rw [← hGF]
      simp only [insertRangeAll]
      rw [hpnmax]
      exact go_rcovers hvcc hWnB1
    have hchn : List.Chain' (fun r s : RangeInfo K => r.shard ≠ s.shard)
        (goF v.cmin v.cmax v.shard (Wn' ++ B1) ++ [pn]) := by
      rw [← hGF]
      simp only [insertRangeAll]
      exact go_chain v.cmin v.cmax v.shard (Wn' ++ B1)
    have hpnmin : pn.rmin ≤ mx := by
      rw [← hpndef]
      exact goCarry_rmin_le (by rw [hv]; exact le_of_lt hmnmx) hWn'
        hB1cov2 hB1sh
    have hB2n : covers pn.rmax B2 ghi := by rw [hpnmax]; exact hB2cov
    have hB2shn : ∀ c, B2.head? = some c → mx < pn.rmax →
        c.shard ≠ pn.shard := by
      intro c hc hlt2
      have hB1ne : B1 ≠ [] := by
        intro hB1nil
        rw [hB1nil] at hB1cov2
        have hEeq : mx = E := hB1cov2
        rw [hpnmax, ← hEeq] at hlt2
        exact lt_irrefl mx hlt2
      have hbl : B1.getLast? = some (B1.getLast hB1ne) :=
        List.getLast?_eq_getLast B1 hB1ne
      have hblmem : B1.getLast hB1ne ∈ B1 := List.getLast_mem hB1ne
      have hble : (Wn' ++ B1).getLast? = some (B1.getLast hB1ne) := by
        rw [List.getLast?_append, hbl]
        rfl
      have hpnsh : pn.shard = (B1.getLast hB1ne).shard := by
        rw [← hpndef]
        exact goCarry_shard_last (Wn' ++ B1) (B1.getLast hB1ne) hble
          v.cmin v.cmax v.shard
      have hblsh : (B1.getLast hB1ne).shard = p.shard :=
        hB1sh (B1.getLast hB1ne) hblmem
      rw [hpnsh, hblsh]
      exact hB2head c hc
    have hH := mergeHighEnd_eq [] (goF v.cmin v.cmax v.shard (Wn' ++ B1))
      pn B2 (by simp) hrcn hchn (by rw [hpnmax]; exact hEmx) hpnmin
      hB2n hB2shn
    simp only [List.nil_append] at hH
    have hNsplit : insertRangeGo v.cmin v.cmax v.shard (Wn' ++ B)
        = goF v.cmin v.cmax v.shard (Wn' ++ B1) ++
          insertRangeGo pn.rmin pn.rmax pn.shard B2 := by
      rw [hBsplit, show Wn' ++ (B1 ++ B2) = (Wn' ++ B1) ++ B2 from
        (List.append_assoc Wn' B1 B2).symm, go_append, hpndef]
    rw [hGF, hNsplit]
    exact hH
  | cons a A' =>
    obtain ⟨ha, halt, hA'⟩ := hA
    have hAfull : covers glo (a :: A') mn := ⟨ha, halt, hA'⟩
    have hacc : a.cmin < a.cmax := by rw [ha]; exact halt
    have hWoB : covers mn (w :: Wo') mx := ⟨hw, hwlt, hWo'⟩
    have hWnB : covers mn (v :: Wn') mx := ⟨hv, hvlt, hWn'⟩
    have hvcc : v.cmin < v.cmax := by rw [hv]; exact hvlt
    -- normalize the shapes of the three lists
    rw [show (a :: A') ++ (w :: Wo') ++ B
        = a :: (A' ++ ((w :: Wo') ++ B)) from by
      rw [List.append_assoc, List.cons_append]]
    rw [show (a :: A') ++ (v :: Wn') ++ B
        = a :: (A' ++ ((v :: Wn') ++ B)) from by
      rw [List.append_assoc, List.cons_append]]
    simp only [insertRangeAll]
    -- carry over the prefix A
    obtain ⟨q, hqdef⟩ : ∃ q, goCarry a.cmin a.cmax a.shard A' = q :=
      ⟨_, rfl⟩
    have hq : q.rmax = mn := by
      rw [← hqdef]; exact goCarry_rmax hA' a.cmin a.shard
    have hqlt : q.rmin < q.rmax := by
      rw [← hqdef]; exact goCarry_lt hacc hA'
    have hqmn : q.rmin < mn := hq ▸ hqlt
    -- carry over the old window, seeded by q
    obtain ⟨p, hpdef⟩ : ∃ p, goCarry q.rmin q.rmax q.shard (w :: Wo') = p :=
      ⟨_, rfl⟩
    have hWoB2 : covers q.rmax (w :: Wo') mx := by rw [hq]; exact hWoB
    have hp : p.rmax = mx := by
      rw [← hpdef]; exact goCarry_rmax hWoB2 q.rmin q.shard
    have hplt : p.rmin < p.rmax := by
      rw [← hpdef]; exact goCarry_lt hqlt hWoB2
    have hprmx : p.rmin < mx := hp ▸ hplt
    have hB' : covers p.rmax B ghi := by rw [hp]; exact hB
    -- first-run split of B relative to the old carry shard
    obtain ⟨B1, B2, hBsplit, hB1sh, hB1cov, hBtail, hB2cov, hB2head⟩ :=
      headEnd_run_split B p.shard hB'
    obtain ⟨E, hEdef⟩ : ∃ E, goHeadEnd p.rmax p.shard B = E := ⟨_, rfl⟩
    rw [hEdef] at hB1cov hB2cov
    have hEmx : mx ≤ E := by
      rw [← hEdef, ← hp]
      exact (goHeadEnd_bounds hB' p.shard).1
    have hB1cov2 : covers mx B1 E := by
      rw [← hp]; exact hB1cov
    -- decomposition of the old coalesce
    have hRsplit : insertRangeGo a.cmin a.cmax a.shard
        (A' ++ ((w :: Wo') ++ B))
        = goF a.cmin a.cmax a.shard A' ++
          insertRangeGo q.rmin q.rmax q.shard ((w :: Wo') ++ B) := by
      rw [go_append, hqdef]
    have hGsplit : insertRangeGo q.rmin q.rmax q.shard ((w :: Wo') ++ B)
        = goF q.rmin q.rmax q.shard (w :: Wo') ++
          insertRangeGo p.rmin p.rmax p.shard B := by
      rw [go_append, hpdef]
    have hGBht : insertRangeGo p.rmin p.rmax p.shard B
        = ⟨p.rmin, E, p.shard⟩ :: goTail p.shard B := by
      rw [go_head_tail, hEdef]
    have hRrc : rcovers a.cmin (insertRangeGo a.cmin a.cmax a.shard
        (A' ++ ((w :: Wo') ++ B))) ghi :=
      go_rcovers hacc (covers_append hA' (covers_append hWoB hB))
    -- bounds for the closed ranges before the window
    have hGmidht : insertRangeGo q.rmin q.rmax q.shard ((w :: Wo') ++ B)
        = ⟨q.rmin, goHeadEnd q.rmax q.shard ((w :: Wo') ++ B), q.shard⟩ ::
          goTail q.shard ((w :: Wo') ++ B) :=
      go_head_tail q.rmin q.rmax q.shard _
    have hFAel : ∀ r ∈ goF a.cmin a.cmax a.shard A', r.rmax ≤ q.rmin := by
      rw [hRsplit] at hRrc
      obtain ⟨m1, hFrc, hGrc⟩ := rcovers_append_split hRrc
      rw [hGmidht] at hGrc
      have hm1 : q.rmin = m1 := hGrc.1
      intro r hr
      exact (rcovers_mem (hm1 ▸ hFrc) r hr).2.2
    have hFAdropLow : ∀ r ∈ goF a.cmin a.cmax a.shard A',
        (fun r : RangeInfo K => decide (r.rmax ≤ mn)) r = true := by
      intro r hr
      simpa using le_trans (hFAel r hr) (le_of_lt hqmn)
    have hFAdropHigh : ∀ r ∈ goF a.cmin a.cmax a.shard A',
        (fun r : RangeInfo K => decide (r.rmax < mx)) r = true := by
      intro r hr
      simpa using lt_of_le_of_lt (hFAel r hr) (lt_trans hqmn hmnmx)
    have hFWoel : ∀ r ∈ goF q.rmin q.rmax q.shard (w :: Wo'),
        r.rmax ≤ p.rmin := by
      have hGrc2 : rcovers q.rmin
          (insertRangeGo q.rmin q.rmax q.shard ((w :: Wo') ++ B)) ghi :=
        go_rcovers hqlt (covers_append hWoB2 hB)
      rw [hGsplit] at hGrc2
      obtain ⟨m2, hFrc2, hGrc3⟩ := rcovers_append_split hGrc2
      rw [hGBht] at hGrc3
      have hm2 : p.rmin = m2 := hGrc3.1
      intro r hr
      exact (rcovers_mem (hm2 ▸ hFrc2) r hr).2.2
    have hFWodrop : ∀ r ∈ goF q.rmin q.rmax q.shard (w :: Wo'),
        (fun r : RangeInfo K => decide (r.rmax < mx)) r = true := by
      intro r hr
      simpa using lt_of_le_of_lt (hFWoel r hr) hprmx
    have hlastA : ∀ x, (goF a.cmin a.cmax a.shard A').getLast? = some x →
        x.shard ≠ q.shard := by
      intro x hx
      have hchA : List.Chain' (fun r s : RangeInfo K => r.shard ≠ s.shard)
          (goF a.cmin a.cmax a.shard A' ++ [q]) := by
        rw [← hqdef, ← go_eq_goF_carry]
        exact go_chain a.cmin a.cmax a.shard A'
      exact @chain_concat_last (RangeInfo K)
        (fun r s => r.shard ≠ s.shard) (goF a.cmin a.cmax a.shard A')
        q x hchA hx
    -- the high lookup and the erase tail (case independent)
    have hhigh : ((insertRangeGo a.cmin a.cmax a.shard
        (A' ++ ((w :: Wo') ++ B))).dropWhile
        (fun r => decide (r.rmax < mx))).head?
        = some ⟨p.rmin, E, p.shard⟩ := by
      rw [hRsplit, hGsplit, dropWhile_append_all hFAdropHigh,
        dropWhile_append_all hFWodrop, hGBht, List.dropWhile_cons,
        if_neg (by simpa using not_lt.mpr hEmx)]
      rfl
    have hpost : ((insertRangeGo a.cmin a.cmax a.shard
        (A' ++ ((w :: Wo') ++ B))).dropWhile
        (fun r => decide (r.rmax < mx))).tail = insertRangeAll B2 := by
      rw [hRsplit, hGsplit, dropWhile_append_all hFAdropHigh,
        dropWhile_append_all hFWodrop, hGBht, List.dropWhile_cons,
        if_neg (by simpa using not_lt.mpr hEmx)]
      simpa using hBtail
    -- the common new-window coalesce and the final high merge
    have hMWcov : covers mn ((v :: Wn') ++ B1) E := covers_append hWnB hB1cov2
    obtain ⟨pn, hpndef⟩ : ∃ pn,
        goCarry q.rmin mn q.shard ((v :: Wn') ++ B1) = pn := ⟨_, rfl⟩
    have hpnmax : pn.rmax = E := by
      rw [← hpndef]; exact goCarry_rmax hMWcov q.rmin q.shard
    have hGF : insertRangeGo q.rmin mn q.shard ((v :: Wn') ++ B1)
        = goF q.rmin mn q.shard ((v :: Wn') ++ B1) ++ [pn] := by
      rw [go_eq_goF_carry, hpndef]
    have hfinal : mergeHighEnd mx
        (goF a.cmin a.cmax a.shard A' ++
          insertRangeGo q.rmin mn q.shard ((v :: Wn') ++ B1) ++
          insertRangeAll B2)
        = some (insertRangeGo a.cmin a.cmax a.shard
            (A' ++ ((v :: Wn') ++ B))) := by
      have hrcn : rcovers q.rmin
          (goF q.rmin mn q.shard ((v :: Wn') ++ B1) ++ [pn]) pn.rmax := by
        rw [← hGF, hpnmax]
        exact go_rcovers hqmn hMWcov
      have hchn : List.Chain' (fun r s : RangeInfo K => r.shard ≠ s.shard)
          (goF q.rmin mn q.shard ((v :: Wn') ++ B1) ++ [pn]) := by
        rw [← hGF]
        exact go_chain q.rmin mn q.shard ((v :: Wn') ++ B1)
      have hpnmin : pn.rmin ≤ mx := by
        rw [← hpndef]
        exact goCarry_rmin_le (le_of_lt (lt_trans hqmn hmnmx)) hWnB
          hB1cov2 hB1sh
      have hB2n : covers pn.rmax B2 ghi := by rw [hpnmax]; exact hB2cov
      have hB2shn : ∀ c, B2.head? = some c → mx < pn.rmax →
          c.shard ≠ pn.shard := by
        intro c hc hlt2
        have hB1ne : B1 ≠ [] := by
          intro hB1nil
          rw [hB1nil] at hB1cov2
          have hEeq : mx = E := hB1cov2
          rw [hpnmax, ← hEeq] at hlt2
          exact lt_irrefl mx hlt2
        have hbl : B1.getLast? = some (B1.getLast hB1ne) :=
          List.getLast?_eq_getLast B1 hB1ne
        have hble : ((v :: Wn') ++ B1).getLast? = some (B1.getLast hB1ne) := by
          rw [List.getLast?_append, hbl]
          rfl
        have hpnsh : pn.shard = (B1.getLast hB1ne).shard := by
          rw [← hpndef]
          exact goCarry_shard_last ((v :: Wn') ++ B1) (B1.getLast hB1ne)
            hble q.rmin mn q.shard
        have hblsh : (B1.getLast hB1ne).shard = p.shard :=
          hB1sh (B1.getLast hB1ne) (List.getLast_mem hB1ne)
        rw [hpnsh, hblsh]
        exact hB2head c hc
      have hFAPRE : ∀ r ∈ goF a.cmin a.cmax a.shard A', r.rmax < mx := by
        intro r hr
        exact lt_of_le_of_lt (hFAel r hr) (lt_trans hqmn hmnmx)
      have hH := mergeHighEnd_eq (goF a.cmin a.cmax a.shard A')
        (goF q.rmin mn q.shard ((v :: Wn') ++ B1)) pn B2 hFAPRE hrcn hchn
        (by rw [hpnmax]; exact hEmx) hpnmin hB2n hB2shn
      have hNsplit : insertRangeGo a.cmin a.cmax a.shard
          (A' ++ ((v :: Wn') ++ B))
          = goF a.cmin a.cmax a.shard A' ++
            goF q.rmin mn q.shard ((v :: Wn') ++ B1) ++
            insertRangeGo pn.rmin pn.rmax pn.shard B2 := by
        rw [go_append, hqdef, hq, hBsplit,
          show (v :: Wn') ++ (B1 ++ B2) = ((v :: Wn') ++ B1) ++ B2 from
            (List.append_assoc (v :: Wn') B1 B2).symm,
          go_append, hpndef]
        simp [List.append_assoc]
      rw [hGF, hNsplit]
      exact hH
    by_cases hsw : w.shard = q.shard
    · -- the old window's first chunk continues the carried run
      have hEWo2 : goHeadEnd q.rmax q.shard ((w :: Wo') ++ B)
          = goHeadEnd w.cmax q.shard (Wo' ++ B) := by
        rw [List.cons_append]
        simp only [goHeadEnd]
        rw [if_pos hsw]
      have hE2 : mn < goHeadEnd w.cmax q.shard (Wo' ++ B) :=
        lt_of_lt_of_le hwlt
          (goHeadEnd_bounds (covers_append hWo' hB) q.shard).1
      have hGmid2 : insertRangeGo q.rmin q.rmax q.shard ((w :: Wo') ++ B)
          = ⟨q.rmin, goHeadEnd w.cmax q.shard (Wo' ++ B), q.shard⟩ ::
            goTail q.shard ((w :: Wo') ++ B) := by
        rw [hGmidht, hEWo2]
      have hlow : ((insertRangeGo a.cmin a.cmax a.shard
          (A' ++ ((w :: Wo') ++ B))).dropWhile
          (fun r => decide (r.rmax ≤ mn))).head?
          = some ⟨q.rmin, goHeadEnd w.cmax q.shard (Wo' ++ B), q.shard⟩ := by
        rw [hRsplit, dropWhile_append_all hFAdropLow, hGmid2,
          List.dropWhile_cons, if_neg (by simpa using not_le.mpr hE2)]
        rfl
      have hpre : ((insertRangeGo a.cmin a.cmax a.shard
          (A' ++ ((w :: Wo') ++ B))).takeWhile
          (fun r => decide (r.rmax ≤ mn)))
          = goF a.cmin a.cmax a.shard A' := by
        rw [hRsplit, takeWhile_append_all hFAdropLow, hGmid2,
          List.takeWhile_cons, if_neg (by simpa using not_le.mpr hE2),
          List.append_nil]
      -- split of the prefix into dropped chunks and the trailing q-run
      have hAsplit : ∃ D0 A2, a :: A' = D0 ++ A2 ∧
          covers a.cmin D0 q.rmin ∧ A2 ≠ [] ∧
          (∀ c ∈ A2, c.shard = q.shard) ∧ covers q.rmin A2 mn := by
        rcases goCarry_run_split A' a.cmin a.shard hA' with
          ⟨hall, hcar⟩ | ⟨l1, l2, hsp, hne, hc1, hc2, hc3⟩
        · rw [hqdef] at hcar
          refine ⟨[], a :: A', rfl, ?_, by simp, ?_, ?_⟩
          · show a.cmin = q.rmin
            rw [hcar]
          · intro c hc
            rcases List.mem_cons.mp hc with rfl | hc2
            · rw [hcar]
            · rw [hcar]
              exact hall c hc2
          · rw [hcar]
            exact ⟨rfl, hacc, hA'⟩
        · rw [hqdef] at hc1 hc2 hc3
          exact ⟨a :: l1, l2, by rw [hsp, ← List.cons_append],
            ⟨rfl, hacc, hc1⟩, hne, hc3, hc2⟩
      obtain ⟨D0, A2, hsplitA, hD0cov, hA2ne, hA2sh, hA2cov⟩ := hAsplit
      obtain ⟨a2, A2', rfl⟩ : ∃ a2 A2', A2 = a2 :: A2' := by
        cases A2 with
        | nil => exact absurd rfl hA2ne
        | cons x y => exact ⟨x, y, rfl⟩
      have ha2min : a2.cmin = q.rmin := hA2cov.1
      have ha2sh : a2.shard = q.shard := hA2sh a2 (by simp)
      have hD0drop : ∀ c ∈ D0,
          (fun c : ChunkEnt K => decide (c.cmax ≤ q.rmin)) c = true := by
        intro c hc
        simpa using (covers_mem hD0cov c hc).2.2
      have hchD : a :: (A' ++ ((v :: Wn') ++ B))
          = D0 ++ ((a2 :: A2') ++ ((v :: Wn') ++ B)) := by
        rw [show a :: (A' ++ ((v :: Wn') ++ B))
            = (a :: A') ++ ((v :: Wn') ++ B) from rfl, hsplitA,
          List.append_assoc]
      have hcb : ((a :: (A' ++ ((v :: Wn') ++ B))).dropWhile
          (fun c => decide (c.cmax ≤ q.rmin)))
          = (a2 :: A2') ++ ((v :: Wn') ++ B) := by
        rw [hchD, dropWhile_append_all hD0drop, List.cons_append,
          List.dropWhile_cons,
          if_neg (by simpa using not_le.mpr hA2cov.2.1)]
      have hM2cov : covers q.rmin ((a2 :: A2') ++ ((v :: Wn') ++ B1)) E :=
        covers_append hA2cov hMWcov
      obtain ⟨M0, ml, hMsp, hml, hM0⟩ :=
        covers_last_split hM2cov (by simp)
      have hmllt : ml.cmin < ml.cmax := by
        have hmem : ml ∈ (a2 :: A2') ++ ((v :: Wn') ++ B1) := by
          rw [hMsp]; simp
        exact (covers_mem hM2cov ml hmem).2.1
      have hM0drop : ∀ c ∈ M0,
          (fun c : ChunkEnt K => decide (c.cmax < E)) c = true := by
        intro c hc
        have h1 : c.cmax ≤ ml.cmin := (covers_mem hM0 c hc).2.2
        simpa using lt_of_le_of_lt h1 (hml ▸ hmllt)
      have hD0dropE : ∀ c ∈ D0,
          (fun c : ChunkEnt K => decide (c.cmax < E)) c = true := by
        intro c hc
        have h1 : c.cmax ≤ q.rmin := (covers_mem hD0cov c hc).2.2
        simpa using lt_of_le_of_lt h1
          (lt_of_lt_of_le (lt_trans hqmn hmnmx) hEmx)
      have hX : (a2 :: A2') ++ ((v :: Wn') ++ B) = M0 ++ (ml :: B2) := by
        rw [hBsplit, show (v :: Wn') ++ (B1 ++ B2)
            = ((v :: Wn') ++ B1) ++ B2 from
          (List.append_assoc (v :: Wn') B1 B2).symm,
          show (a2 :: A2') ++ (((v :: Wn') ++ B1) ++ B2)
            = ((a2 :: A2') ++ ((v :: Wn') ++ B1)) ++ B2 from
          (List.append_assoc _ _ _).symm, hMsp]
        simp [List.append_assoc]
      have hchunks2 : a :: (A' ++ ((v :: Wn') ++ B))
          = D0 ++ (M0 ++ (ml :: B2)) := by
        rw [hchD, hX]
      have hce2 : ((a :: (A' ++ ((v :: Wn') ++ B))).dropWhile
          (fun c => decide (c.cmax < E))).head? = some ml := by
        rw [hchunks2, dropWhile_append_all hD0dropE,
          dropWhile_append_all hM0drop, List.dropWhile_cons,
          if_neg (by simp [hml])]
        rfl
      have hslice2 : (((a2 :: A2') ++ ((v :: Wn') ++ B)).takeWhile
          (fun c => decide (c.cmax < E))) ++ [ml]
          = (a2 :: A2') ++ ((v :: Wn') ++ B1) := by
        rw [hX, takeWhile_append_all hM0drop, List.takeWhile_cons,
          if_neg (by simp [hml]), List.append_nil, ← hMsp]
      have hsliceCoal : insertRangeAll ((a2 :: A2') ++ ((v :: Wn') ++ B1))
          = insertRangeGo q.rmin mn q.shard ((v :: Wn') ++ B1) := by
        rw [show (a2 :: A2') ++ ((v :: Wn') ++ B1)
            = a2 :: (A2' ++ ((v :: Wn') ++ B1)) from rfl]
        simp only [insertRangeAll]
        rw [go_run (fun c hc => ((hA2sh c (by simp [hc])).trans ha2sh.symm))
          hA2cov.2.2 ((v :: Wn') ++ B1) a2.cmin, ha2min, ha2sh]
      have hr1ne2 : goF a.cmin a.cmax a.shard A' ++
          insertRangeGo q.rmin mn q.shard ((v :: Wn') ++ B1) ++
          insertRangeAll B2 ≠ [] := by
        intro hcon
        have h1 := (List.append_eq_nil.mp hcon).1
        have h2 := (List.append_eq_nil.mp h1).2
        exact go_ne_nil q.rmin mn q.shard ((v :: Wn') ++ B1) h2
      -- assembly
      simp only [reloadRange]
      rw [if_neg (go_ne_nil a.cmin a.cmax a.shard (A' ++ ((w :: Wo') ++ B)))]
      rw [hlow]
      simp only []
      rw [hhigh]
      simp only []
      rw [hcb]
      rw [if_neg (by simp : ¬((a2 :: A2') ++ ((v :: Wn') ++ B) = []))]
      rw [hce2]
      simp only []
      rw [hslice2, hpre, hpost, hsliceCoal]
      rw [if_neg hr1ne2]
      rw [mergeLowEnd_keep (goF a.cmin a.cmax a.shard A')
        (insertRangeAll B2) hFAel hqmn hlastA hMWcov (by simp)]
      simp only []
      exact hfinal
    · -- the old window starts a new run at mn
      have hEWo3 : goHeadEnd q.rmax q.shard ((w :: Wo') ++ B) = q.rmax := by
        rw [List.cons_append]
        simp only [goHeadEnd]
        rw [if_neg hsw]
      have hGtl : goTail q.shard ((w :: Wo') ++ B)
          = insertRangeGo w.cmin w.cmax w.shard (Wo' ++ B) := by
        rw [List.cons_append]
        simp only [goTail]
        rw [if_neg hsw]
      have hWht : insertRangeGo w.cmin w.cmax w.shard (Wo' ++ B)
          = ⟨w.cmin, goHeadEnd w.cmax w.shard (Wo' ++ B), w.shard⟩ ::
            goTail w.shard (Wo' ++ B) := go_head_tail w.cmin w.cmax w.shard _
      have hE4 : mn < goHeadEnd w.cmax w.shard (Wo' ++ B) :=
        lt_of_lt_of_le hwlt
          (goHeadEnd_bounds (covers_append hWo' hB) w.shard).1
      have hGmid3 : insertRangeGo q.rmin q.rmax q.shard ((w :: Wo') ++ B)
          = ⟨q.rmin, mn, q.shard⟩ ::
            (⟨w.cmin, goHeadEnd w.cmax w.shard (Wo' ++ B), w.shard⟩ ::
              goTail w.shard (Wo' ++ B)) := by
        rw [hGmidht, hEWo3, hq, hGtl, hWht]
      have hlow : ((insertRangeGo a.cmin a.cmax a.shard
          (A' ++ ((w :: Wo') ++ B))).dropWhile
          (fun r => decide (r.rmax ≤ mn))).head?
          = some ⟨w.cmin, goHeadEnd w.cmax w.shard (Wo' ++ B), w.shard⟩ := by
        rw [hRsplit, dropWhile_append_all hFAdropLow, hGmid3,
          List.dropWhile_cons, if_pos (by simp), List.dropWhile_cons,
          if_neg (by simpa using not_le.mpr hE4)]
        rfl
      have hpre : ((insertRangeGo a.cmin a.cmax a.shard
          (A' ++ ((w :: Wo') ++ B))).takeWhile
          (fun r => decide (r.rmax ≤ mn)))
          = goF a.cmin a.cmax a.shard A' ++ [⟨q.rmin, mn, q.shard⟩] := by
        rw [hRsplit, takeWhile_append_all hFAdropLow, hGmid3,
          List.takeWhile_cons, if_pos (by simp), List.takeWhile_cons,
          if_neg (by simpa using not_le.mpr hE4)]
      have hadrop : ∀ c ∈ a :: A',
          (fun c : ChunkEnt K => decide (c.cmax ≤ w.cmin)) c = true := by
        intro c hc
        have h1 := (covers_mem hAfull c hc).2.2
        simp [hw]
        exact h1
      have hcb : ((a :: (A' ++ ((v :: Wn') ++ B))).dropWhile
          (fun c => decide (c.cmax ≤ w.cmin)))
          = (v :: Wn') ++ B := by
        rw [show a :: (A' ++ ((v :: Wn') ++ B))
            = (a :: A') ++ ((v :: Wn') ++ B) from rfl,
          dropWhile_append_all hadrop, List.cons_append, List.dropWhile_cons,
          if_neg (by simp [hw, not_le_of_lt hvlt])]
      obtain ⟨M0, ml, hMsp, hml, hM0⟩ :=
        covers_last_split hMWcov (by simp)
      have hmllt : ml.cmin < ml.cmax := by
        have hmem : ml ∈ (v :: Wn') ++ B1 := by rw [hMsp]; simp
        exact (covers_mem hMWcov ml hmem).2.1
      have hM0drop : ∀ c ∈ M0,
          (fun c : ChunkEnt K => decide (c.cmax < E)) c = true := by
        intro c hc
        have h1 : c.cmax ≤ ml.cmin := (covers_mem hM0 c hc).2.2
        simpa using lt_of_le_of_lt h1 (hml ▸ hmllt)
      have hadropE : ∀ c ∈ a :: A',
          (fun c : ChunkEnt K => decide (c.cmax < E)) c = true := by
        intro c hc
        have h1 := (covers_mem hAfull c hc).2.2
        simpa using lt_of_le_of_lt h1 (lt_of_lt_of_le hmnmx hEmx)
      have hX : (v :: Wn') ++ B = M0 ++ (ml :: B2) := by
        rw [hBsplit, show (v :: Wn') ++ (B1 ++ B2)
            = ((v :: Wn') ++ B1) ++ B2 from
          (List.append_assoc (v :: Wn') B1 B2).symm, hMsp]
        simp [List.append_assoc]
      have hchunks3 : a :: (A' ++ ((v :: Wn') ++ B))
          = (a :: A') ++ (M0 ++ (ml :: B2)) := by
        rw [show a :: (A' ++ ((v :: Wn') ++ B))
            = (a :: A') ++ ((v :: Wn') ++ B) from rfl, hX]
      have hce3 : ((a :: (A' ++ ((v :: Wn') ++ B))).dropWhile
          (fun c => decide (c.cmax < E))).head? = some ml := by
        rw [hchunks3, dropWhile_append_all hadropE,
          dropWhile_append_all hM0drop, List.dropWhile_cons,
          if_neg (by simp [hml])]
        rfl
      have hslice3 : (((v :: Wn') ++ B).takeWhile
          (fun c => decide (c.cmax < E))) ++ [ml]
          = (v :: Wn') ++ B1 := by
        rw [hX, takeWhile_append_all hM0drop, List.takeWhile_cons,
          if_neg (by simp [hml]), List.append_nil, ← hMsp]
      have hr1ne3 : (goF a.cmin a.cmax a.shard A' ++
          [(⟨q.rmin, mn, q.shard⟩ : RangeInfo K)]) ++
          insertRangeAll ((v :: Wn') ++ B1) ++
          insertRangeAll B2 ≠ [] := by
        intro hcon
        have h1 := (List.append_eq_nil.mp hcon).1
        have h2 := (List.append_eq_nil.mp h1).1
        have h3 := (List.append_eq_nil.mp h2).2
        simp at h3
      -- assembly
      simp only [reloadRange]
      rw [if_neg (go_ne_nil a.cmin a.cmax a.shard (A' ++ ((w :: Wo') ++ B)))]
      rw [hlow]
      simp only []
      rw [hhigh]
      simp only []
      rw [hcb]
      rw [if_neg (by simp : ¬((v :: Wn') ++ B = []))]
      rw [hce3]
      simp only []
      rw [hslice3, hpre, hpost]
      rw [if_neg hr1ne3]
      rw [mergeLowEnd_seam (goF a.cmin a.cmax a.shard A')
        (insertRangeAll B2) hFAel hqmn hMWcov (by simp)]
      simp only []
      exact hfinal

end C6Main


/-- Witness for C6 at a concrete instance over `Int`: a five-chunk map with
three shards, the window `[2, 5)` re-split, exercising both merge ends. -/
theorem C6_reloadRange_equiv_witness :
    covers (0 : Int) [⟨0, 1, 0⟩, ⟨1, 2, 1⟩] 2 ∧
    covers (2 : Int) [⟨2, 3, 1⟩, ⟨3, 5, 0⟩] 5 ∧
    covers (2 : Int) [⟨2, 4, 2⟩, ⟨4, 5, 0⟩] 5 ∧
    covers (5 : Int) [⟨5, 6, 0⟩, ⟨6, 7, 2⟩] 7 ∧
    ([⟨2, 3, 1⟩, ⟨3, 5, 0⟩] : List (ChunkEnt Int)) ≠ [] ∧
    ([⟨2, 4, 2⟩, ⟨4, 5, 0⟩] : List (ChunkEnt Int)) ≠ [] ∧
    reloadRange
      (insertRangeAll ([⟨0, 1, 0⟩, ⟨1, 2, 1⟩] ++ [⟨2, 3, 1⟩, ⟨3, 5, 0⟩] ++
        [⟨5, 6, 0⟩, ⟨6, 7, 2⟩]))
      ([⟨0, 1, 0⟩, ⟨1, 2, 1⟩] ++ [⟨2, 4, 2⟩, ⟨4, 5, 0⟩] ++
        [⟨5, 6, 0⟩, ⟨6, 7, 2⟩]) 2 5
      = some (insertRangeAll ([⟨0, 1, 0⟩, ⟨1, 2, 1⟩] ++
        [⟨2, 4, 2⟩, ⟨4, 5, 0⟩] ++ [⟨5, 6, 0⟩, ⟨6, 7, 2⟩])) :=
  ⟨by decide, by decide, by decide, by decide, by decide, by decide,
    C6_reloadRange_equiv _ _ _ _ 0 2 5 7 (by decide) (by decide) (by decide)
      (by decide) (by decide) (by decide)⟩

theorem C8_genID_injective_witness :
    "t".toList = "t".toList ∧
      [("a".toList, true)] = [("a".toList, true)] :=
  C8_genID_injective_restricted renderBool
    (by decide)
    (by decide)
    (by decide)
    "t".toList "t".toList (by decide) (by decide)
    [("a".toList, true)] [("a".toList, true)]
    (by decide) (by decide) rfl

section C4Dev

variable {K : Type} [LinearOrder K]

theorem drop_findIdx_head {α : Type} (p : α → Bool) (l : List α) :
    (l.drop (l.findIdx p)).head? = l.find? p := by
  induction l with
  | nil => rfl
  | cons a t ih =>
    rw [List.findIdx_cons, List.find?_cons]
    by_cases h : p a
    · rw [h]
      rfl
    · rw [show p a = false from by simpa using h]
      simpa using ih

/-- On a contiguous index, `upper_bound` for a key inside the covered span
finds the unique range containing it. -/
theorem rcovers_find_covering {glo ghi v : K} :
    ∀ {idx : List (RangeInfo K)}, rcovers glo idx ghi → glo ≤ v → v < ghi →
    ∃ r, idx.find? (fun r => decide (v < r.rmax)) = some r ∧
      r ∈ idx ∧ r.rmin ≤ v ∧ v < r.rmax := by
  intro idx
  induction idx generalizing glo with
  | nil =>
    intro h h1 h2
    exact absurd (lt_of_le_of_lt h1 h2) (by rw [show glo = ghi from h]; simp)
  | cons r t ih =>
    intro h h1 h2
    obtain ⟨hr, hlt, hrest⟩ := h
    by_cases hv : v < r.rmax
    · refine ⟨r, List.find?_cons_of_pos t (by simpa using hv), by simp, ?_, hv⟩
      rw [hr]
      exact h1
    · obtain ⟨r2, hf, hmem, hb1, hb2⟩ := ih hrest (le_of_not_lt hv) h2
      refine ⟨r2, ?_, by simp [hmem], hb1, hb2⟩
      rw [List.find?_cons_of_neg t (by simpa using hv)]
      exact hf

theorem rcovers_rmin_inj {glo ghi : K} :
    ∀ {idx : List (RangeInfo K)}, rcovers glo idx ghi →
    ∀ x ∈ idx, ∀ y ∈ idx, x.rmin = y.rmin → x = y := by
  intro idx
  induction idx generalizing glo with
  | nil => intro _ x hx; exact absurd hx (by simp)
  | cons r t ih =>
    intro h x hx y hy hxy
    obtain ⟨hr, hlt, hrest⟩ := h
    have hbig : ∀ z ∈ t, r.rmin < z.rmin := by
      intro z hz
      calc r.rmin < r.rmax := hr ▸ hlt
        _ ≤ z.rmin := (rcovers_mem hrest z hz).1
    rcases List.mem_cons.mp hx with rfl | hx2
    · rcases List.mem_cons.mp hy with rfl | hy2
      · rfl
      · exact absurd hxy (ne_of_lt (hbig y hy2))
    · rcases List.mem_cons.mp hy with rfl | hy2
      · exact absurd hxy.symm (ne_of_lt (hbig x hx2))
      · exact ih hrest x hx2 y hy2 hxy

theorem insertByMin_mem_of : ∀ {s : List (RangeInfo K)} {r x : RangeInfo K},
    x ∈ insertByMin s r → x = r ∨ x ∈ s := by
  intro s
  induction s with
  | nil =>
    intro r x hx
    simp only [insertByMin] at hx
    left
    simpa using hx
  | cons a rest ih =>
    intro r x hx
    simp only [insertByMin] at hx
    by_cases h1 : r.rmin < a.rmin
    · rw [if_pos h1] at hx
      rcases List.mem_cons.mp hx with rfl | hx2
      · left; rfl
      · right; exact hx2
    · rw [if_neg h1] at hx
      by_cases h2 : a.rmin < r.rmin
      · rw [if_pos h2] at hx
        rcases List.mem_cons.mp hx with rfl | hx2
        · right; simp
        · rcases ih hx2 with h | h
          · left; exact h
          · right; simp [h]
      · rw [if_neg h2] at hx
        right
        exact hx

theorem insertByMin_pairwise {s : List (RangeInfo K)} {r : RangeInfo K}
    (h : List.Pairwise (fun x y : RangeInfo K => x.rmin < y.rmin) s) :
    List.Pairwise (fun x y : RangeInfo K => x.rmin < y.rmin)
      (insertByMin s r) := by
  induction s with
  | nil => simp [insertByMin]
  | cons a rest ih =>
    obtain ⟨ha, hrest⟩ := List.pairwise_cons.mp h
    simp only [insertByMin]
    by_cases h1 : r.rmin < a.rmin
    · rw [if_pos h1]
      refine List.Pairwise.cons ?_ h
      intro x hx
      rcases List.mem_cons.mp hx with rfl | hx2
      · exact h1
      · exact lt_trans h1 (ha x hx2)
    · rw [if_neg h1]
      by_cases h2 : a.rmin < r.rmin
      · rw [if_pos h2]
        refine List.Pairwise.cons ?_ (ih hrest)
        intro x hx
        rcases insertByMin_mem_of hx with rfl | hx2
        · exact h2
        · exact ha x hx2
      · rw [if_neg h2]
        exact h

theorem insertByMin_mem_iff {pool : List (RangeInfo K)}
    (hinj : ∀ x ∈ pool, ∀ y ∈ pool, x.rmin = y.rmin → x = y) :
    ∀ {s : List (RangeInfo K)} {r : RangeInfo K},
    (∀ x ∈ s, x ∈ pool) → r ∈ pool →
    ∀ x, x ∈ insertByMin s r ↔ (x = r ∨ x ∈ s) := by
  intro s
  induction s with
  | nil =>
    intro r _ _ x
    simp [insertByMin]
  | cons a rest ih =>
    intro r hs hr x
    simp only [insertByMin]
    by_cases h1 : r.rmin < a.rmin
    · rw [if_pos h1]
      simp [or_assoc]
    · rw [if_neg h1]
      by_cases h2 : a.rmin < r.rmin
      · rw [if_pos h2]
        have hiff := ih (fun z hz => hs z (by simp [hz])) hr x
        constructor
        · intro hx
          rcases List.mem_cons.mp hx with rfl | hx2
          · right; simp
          · rcases hiff.mp hx2 with h | h
            · left; exact h
            · right; simp [h]
        · intro hx
          rcases hx with rfl | hx2
          · exact List.mem_cons_of_mem a (hiff.mpr (Or.inl rfl))
          · rcases List.mem_cons.mp hx2 with rfl | hx3
            · simp
            · exact List.mem_cons_of_mem a (hiff.mpr (Or.inr hx3))
      · rw [if_neg h2]
        have har : a = r :=
          hinj a (hs a (by simp)) r hr
            (le_antisymm (le_of_not_lt h1) (le_of_not_lt h2))
        constructor
        · intro hx
          right
          exact hx
        · intro hx
          rcases hx with rfl | hx2
          · rw [← har]
            simp
          · exact hx2

theorem foldl_insertByMin_spec {pool : List (RangeInfo K)}
    (hinj : ∀ x ∈ pool, ∀ y ∈ pool, x.rmin = y.rmin → x = y) :
    ∀ (flat acc : List (RangeInfo K)),
    (∀ x ∈ acc, x ∈ pool) → (∀ x ∈ flat, x ∈ pool) →
    List.Pairwise (fun x y : RangeInfo K => x.rmin < y.rmin) acc →
    List.Pairwise (fun x y : RangeInfo K => x.rmin < y.rmin)
      (flat.foldl insertByMin acc) ∧
    (∀ x, x ∈ flat.foldl insertByMin acc ↔ (x ∈ acc ∨ x ∈ flat)) := by
  intro flat
  induction flat with
  | nil =>
    intro acc _ _ hp
    refine ⟨hp, ?_⟩
    intro x
    simp
  | cons f rest ih =>
    intro acc hacc hflat hp
    have hf : f ∈ pool := hflat f (by simp)
    have hacc2 : ∀ x ∈ insertByMin acc f, x ∈ pool := by
      intro x hx
      rcases insertByMin_mem_of hx with rfl | hx2
      · exact hf
      · exact hacc x hx2
    obtain ⟨hpw, hmem⟩ := ih (insertByMin acc f) hacc2
      (fun z hz => hflat z (by simp [hz])) (insertByMin_pairwise hp)
    refine ⟨hpw, ?_⟩
    intro x
    rw [List.foldl_cons, hmem x, insertByMin_mem_iff hinj hacc hf x]
    constructor
    · intro hx
      rcases hx with (rfl | h) | h
      · right; simp
      · left; exact h
      · right; simp [h]
    · intro hx
      rcases hx with h | h
      · left; right; exact h
      · rcases List.mem_cons.mp h with rfl | h2
        · left; left; rfl
        · right; exact h2

theorem sliceFor_sub {idx : List (RangeInfo K)} {fi : FieldInterval K}
    {s : List (RangeInfo K)} (h : sliceFor idx fi = some s) :
    ∀ r ∈ s, r ∈ idx := by
  simp only [sliceFor] at h
  by_cases hlo : (if fi.lowerIncl then ubIdx idx fi.lowerBound
      else lbIdx idx fi.lowerBound) = idx.length
  · rw [if_pos hlo] at h
    simp at h
  · rw [if_neg hlo] at h
    have hs : s = (idx.drop (if fi.lowerIncl then ubIdx idx fi.lowerBound
        else lbIdx idx fi.lowerBound)).take
        ((if fi.upperIncl then ubIdx idx fi.upperBound
          else lbIdx idx fi.upperBound) + 1 -
          (if fi.lowerIncl then ubIdx idx fi.lowerBound
            else lbIdx idx fi.lowerBound)) := by
      simpa using h.symm
    intro r hr
    rw [hs] at hr
    exact List.mem_of_mem_drop (List.mem_of_mem_take hr)

theorem gatherSlices_sub {idx : List (RangeInfo K)} :
    ∀ {fis : List (FieldInterval K)} {ss : List (List (RangeInfo K))},
    gatherSlices idx fis = some ss → ∀ s ∈ ss, ∀ r ∈ s, r ∈ idx := by
  intro fis
  induction fis with
  | nil =>
    intro ss h s hs
    simp only [gatherSlices] at h
    rw [show ss = [] from by simpa using h.symm] at hs
    simp at hs
  | cons fi rest ih =>
    intro ss h s hs
    simp only [gatherSlices] at h
    cases h1 : sliceFor idx fi with
    | none => rw [h1] at h; simp at h
    | some s1 =>
      rw [h1] at h
      cases h2 : gatherSlices idx rest with
      | none => rw [h2] at h; simp at h
      | some ss1 =>
        rw [h2] at h
        have hss : ss = s1 :: ss1 := by simpa using h.symm
        rw [hss] at hs
        rcases List.mem_cons.mp hs with rfl | hs2
        · exact sliceFor_sub h1
        · exact ih h2 s hs2

/-- C4: `ChunkManager::_getChunksForQuery` over a contiguous range index:
a special query is rejected (uassert 13088); an empty range returns zero
chunks; an equality `x = v` returns exactly the first range whose max
exceeds `v` (the one `upper_bound` finds) and, when `v` lies in the covered
span, that is the unique range containing `v`; a trivial range returns the
"all chunks" signal; and non-trivial intervals return the set of ranges of
the interval slices, deduplicated and strictly ordered by range min. -/
theorem C4_getChunksForQuery_characterization
    (idx : List (RangeInfo K)) (range : FieldRange K) (glo ghi : K)
    (hidx : rcovers glo idx ghi) :
    (range.isSpecial = true → getChunksForQuery idx range = .errSpecial) ∧
    (range.isSpecial = false → range.isEmpty = true →
      getChunksForQuery idx range = .countRes []) ∧
    (range.isSpecial = false → range.isEmpty = false →
      range.isEquality = true →
      getChunksForQuery idx range
        = match idx.find? (fun r => decide (range.eqVal < r.rmax)) with
          | some r => .countRes [r]
          | none => .assertFail) ∧
    (range.isSpecial = false → range.isEmpty = false →
      range.isEquality = true → glo ≤ range.eqVal → range.eqVal < ghi →
      ∃ r, getChunksForQuery idx range = .countRes [r] ∧ r ∈ idx ∧
        r.rmin ≤ range.eqVal ∧ range.eqVal < r.rmax) ∧
    (range.isSpecial = false → range.isEmpty = false →
      range.isEquality = false → range.isNontrivial = false →
      getChunksForQuery idx range = .allChunks) ∧
    (range.isSpecial = false → range.isEmpty = false →
      range.isEquality = false → range.isNontrivial = true →
      ∀ ss, gatherSlices idx range.intervals = some ss →
      ∃ L, getChunksForQuery idx range = .countRes L ∧
        List.Pairwise (fun x y : RangeInfo K => x.rmin < y.rmin) L ∧
        (∀ r, r ∈ L ↔ ∃ s ∈ ss, r ∈ s) ∧
        (∀ s ∈ ss, ∀ r ∈ s, r ∈ idx)) := by
  have heqmatch : range.isSpecial = false → range.isEmpty = false →
      range.isEquality = true →
      getChunksForQuery idx range
        = match idx.find? (fun r => decide (range.eqVal < r.rmax)) with
          | some r => .countRes [r]
          | none => .assertFail := by
    intro h1 h2 h3
    simp only [getChunksForQuery, h1, h2, h3]
    rw [show ubIdx idx range.eqVal
        = idx.findIdx (fun r => decide (range.eqVal < r.rmax)) from rfl,
      drop_findIdx_head]
    simp
  refine ⟨?_, ?_, heqmatch, ?_, ?_, ?_⟩
  · intro h1
    simp [getChunksForQuery, h1]
  · intro h1 h2
    simp [getChunksForQuery, h1, h2]
  · intro h1 h2 h3 h4 h5
    obtain ⟨r, hf, hmem, hb1, hb2⟩ := rcovers_find_covering hidx h4 h5
    refine ⟨r, ?_, hmem, hb1, hb2⟩
    rw [heqmatch h1 h2 h3, hf]
  · intro h1 h2 h3 h4
    simp [getChunksForQuery, h1, h2, h3, h4]
  · intro h1 h2 h3 h4 ss hss
    have hinj : ∀ x ∈ idx, ∀ y ∈ idx, x.rmin = y.rmin → x = y :=
      rcovers_rmin_inj hidx
    have hsub : ∀ s ∈ ss, ∀ r ∈ s, r ∈ idx := gatherSlices_sub hss
    have hflat : ∀ x ∈ ss.flatten, x ∈ idx := by
      intro x hx
      obtain ⟨s, hs, hxs⟩ := List.mem_flatten.mp hx
      exact hsub s hs x hxs
    obtain ⟨hpw, hmem⟩ := foldl_insertByMin_spec hinj ss.flatten []
      (by simp) hflat (by simp)
    refine ⟨ss.flatten.foldl insertByMin [], ?_, hpw, ?_, hsub⟩
    · simp only [getChunksForQuery, h1, h2, h3, h4, hss]
      simp
    · intro r
      rw [hmem r]
      simp [List.mem_flatten]

end C4Dev

/-- Witness for C4 over a concrete three-range index on `Int`: the equality
query returns the unique covering range, and two overlapping intervals
return the deduplicated ordered union of their slices. -/
theorem C4_getChunksForQuery_witness :
    rcovers (0 : Int) [⟨0, 2, 0⟩, ⟨2, 4, 1⟩, ⟨4, 6, 0⟩] 6 ∧
    getChunksForQuery [⟨0, 2, 0⟩, ⟨2, 4, 1⟩, ⟨4, 6, 0⟩]
      ⟨false, false, true, 3, false, []⟩ = .countRes [⟨2, 4, 1⟩] ∧
    getChunksForQuery [⟨0, 2, 0⟩, ⟨2, 4, 1⟩, ⟨4, 6, 0⟩]
      ⟨false, false, false, 0, true,
        [⟨1, true, 3, true⟩, ⟨2, true, 5, true⟩]⟩
      = .countRes [⟨0, 2, 0⟩, ⟨2, 4, 1⟩, ⟨4, 6, 0⟩] :=
  ⟨by decide,
   by
    rw [(C4_getChunksForQuery_characterization _ _ 0 6 (by decide)).2.2.1
      rfl rfl rfl]
    decide,
   by decide⟩

end MongoChunk
